import Mathlib

/-!
Verification of the roxide repository's core subsystems against its
natural-language specification: the frecency scoring model, the branch
inspector, the branch synchronization state machine, the repository
resolution engine, and the concurrent batch executor.

Each Go function is shallowly embedded as an executable Lean definition
translated directly from the source; theorems below settle the spec claims
against those definitions.
-/

namespace Roxide

/-! ## Frecency model (pkg/timeutils and the db repository model)

`getScore` operates on Go `uint64` values; multiplication wraps modulo
`2 ^ 64`.  We embed machine words as `Nat` with an explicit `% 2 ^ 64`
on every operation that can overflow.
-/

/-- `timeutils.MinuteSeconds`. -/
def minuteSeconds : Nat := 60

/-- `timeutils.HourSeconds`. -/
def hourSeconds : Nat := 60 * minuteSeconds

/-- `timeutils.DaySeconds`. -/
def daySeconds : Nat := 24 * hourSeconds

/-- `timeutils.WeekSeconds`. -/
def weekSeconds : Nat := 7 * daySeconds

/-- The modulus of Go's `uint64` arithmetic. -/
def u64Mod : Nat := 2 ^ 64

/-- `db.getScore(delta, count uint64) uint64`: the frecency bucket scoring
function.  The multiplications are Go `uint64` multiplications, hence the
explicit reduction modulo `2 ^ 64`; the final branch returns `count`
unchanged. -/
def getScore (delta count : Nat) : Nat :=
  if delta < hourSeconds then count * 16 % u64Mod
  else if delta < daySeconds then count * 8 % u64Mod
  else if delta < weekSeconds then count * 2 % u64Mod
  else count

/-- The recency bucket index of a delta: 0 for under an hour, 1 for under a
day, 2 for under a week, 3 otherwise. -/
def scoreBucket (delta : Nat) : Nat :=
  if delta < hourSeconds then 0
  else if delta < daySeconds then 1
  else if delta < weekSeconds then 2
  else 3

/-- The multiplier applied in bucket `b`. -/
def bucketFactor (b : Nat) : Nat :=
  if b = 0 then 16 else if b = 1 then 8 else if b = 2 then 2 else 1

theorem hourSeconds_val : hourSeconds = 3600 := by norm_num [hourSeconds, minuteSeconds]

theorem daySeconds_val : daySeconds = 86400 := by norm_num [daySeconds, hourSeconds_val]

theorem weekSeconds_val : weekSeconds = 604800 := by norm_num [weekSeconds, daySeconds_val]

theorem scoreBucket_le (delta : Nat) : scoreBucket delta ≤ 3 := by
  unfold scoreBucket; split_ifs <;> omega

theorem bucketFactor_lt {b₁ b₂ : Nat} (hb : b₂ ≤ 3) (h : b₁ < b₂) :
    bucketFactor b₂ < bucketFactor b₁ := by
  unfold bucketFactor; split_ifs <;> omega

/-- When no multiplication overflows, `getScore` is an honest product with the
bucket factor. -/
theorem getScore_nowrap (delta count : Nat) (h : count * 16 < u64Mod) :
    getScore delta count = count * bucketFactor (scoreBucket delta) := by
  have key : ∀ m, m ≤ 16 → count * m % u64Mod = count * m := fun m hm =>
    Nat.mod_eq_of_lt (lt_of_le_of_lt (Nat.mul_le_mul (le_refl count) hm) h)
  by_cases h1 : delta < hourSeconds
  · simp [getScore, scoreBucket, bucketFactor, h1, key 16 (le_refl 16)]
  · by_cases h2 : delta < daySeconds
    · simp [getScore, scoreBucket, bucketFactor, h1, h2, key 8 (by norm_num)]
    · by_cases h3 : delta < weekSeconds
      · simp [getScore, scoreBucket, bucketFactor, h1, h2, h3, key 2 (by norm_num)]
      · simp [getScore, scoreBucket, bucketFactor, h1, h2, h3]

/-- C5 (counterexample): the claim quantifies over *every* count, but `getScore`
computes with Go `uint64` arithmetic, so `count * 16` wraps modulo `2 ^ 64`:
at `count = 2 ^ 60` the score is not `count * 16`, and the score is not
monotone in the visit count within the first bucket (`2 ^ 59 ≤ 2 ^ 60` yet
the score drops from `2 ^ 63` to `0`). -/
theorem getScore_overflow_counterexample :
    getScore 0 (2 ^ 60) ≠ 2 ^ 60 * 16 ∧
      ¬(getScore 0 (2 ^ 59) ≤ getScore 0 (2 ^ 60)) := by
  constructor
  · decide
  · decide

/-- C5 (amended): in the absence of `uint64` overflow (`count * 16 < 2 ^ 64`),
the frecency score satisfies the claimed bucket equations
(`count×16` under an hour, `count×8` under a day, `count×2` under a week,
`count×1` otherwise), is monotone in the visit count within a fixed bucket,
strictly decreases for a fixed positive count when the delta moves to a
later bucket, and takes the claimed values at the four sample points. -/
theorem getScore_spec :
    (∀ delta count, count * 16 < u64Mod →
      ((delta < 3600 → getScore delta count = count * 16) ∧
       (3600 ≤ delta → delta < 86400 → getScore delta count = count * 8) ∧
       (86400 ≤ delta → delta < 604800 → getScore delta count = count * 2) ∧
       (604800 ≤ delta → getScore delta count = count))) ∧
    (∀ delta count₁ count₂, count₂ * 16 < u64Mod → count₁ ≤ count₂ →
      getScore delta count₁ ≤ getScore delta count₂) ∧
    (∀ delta₁ delta₂ count, 1 ≤ count → count * 16 < u64Mod →
      scoreBucket delta₁ < scoreBucket delta₂ →
      getScore delta₂ count < getScore delta₁ count) ∧
    (getScore 0 1 = 16 ∧ getScore 3601 1 = 8 ∧ getScore 90000 1 = 2 ∧
      getScore 700000 1 = 1) := by
  refine ⟨?_, ?_, ?_, by decide, by decide, by decide, by decide⟩
  · intro delta count h
    refine ⟨fun hd => ?_, fun hd1 hd2 => ?_, fun hd1 hd2 => ?_, fun hd => ?_⟩ <;>
      rw [getScore_nowrap delta count h]
    · have e1 : delta < hourSeconds := by rw [hourSeconds_val]; omega
      simp [scoreBucket, bucketFactor, e1]
    · have e1 : ¬delta < hourSeconds := by rw [hourSeconds_val]; omega
      have e2 : delta < daySeconds := by rw [daySeconds_val]; omega
      simp [scoreBucket, bucketFactor, e1, e2]
    · have e1 : ¬delta < hourSeconds := by rw [hourSeconds_val]; omega
      have e2 : ¬delta < daySeconds := by rw [daySeconds_val]; omega
      have e3 : delta < weekSeconds := by rw [weekSeconds_val]; omega
      simp [scoreBucket, bucketFactor, e1, e2, e3]
    · have e1 : ¬delta < hourSeconds := by rw [hourSeconds_val]; omega
      have e2 : ¬delta < daySeconds := by rw [daySeconds_val]; omega
      have e3 : ¬delta < weekSeconds := by rw [weekSeconds_val]; omega
      simp [scoreBucket, bucketFactor, e1, e2, e3]
  · intro delta count₁ count₂ h₂ hle
    have h₁ : count₁ * 16 < u64Mod :=
      lt_of_le_of_lt (Nat.mul_le_mul hle (le_refl 16)) h₂
    rw [getScore_nowrap delta count₁ h₁, getScore_nowrap delta count₂ h₂]
    exact Nat.mul_le_mul hle (le_refl _)
  · intro delta₁ delta₂ count h1 h16 hb
    rw [getScore_nowrap delta₁ count h16, getScore_nowrap delta₂ count h16]
    exact mul_lt_mul_of_pos_left (bucketFactor_lt (scoreBucket_le delta₂) hb) (by omega)

/-- Witness for `getScore_spec` at concrete inputs. -/
theorem getScore_spec_witness :
    getScore 100 3 = 48 ∧ getScore 5000 2 ≤ getScore 5000 5 ∧
      getScore 90000 7 < getScore 100 7 := by
  refine ⟨?_, ?_, ?_⟩
  · exact (getScore_spec.1 100 3 (by decide)).1 (by decide)
  · exact getScore_spec.2.1 5000 2 5 (by decide) (by decide)
  · exact getScore_spec.2.2.1 100 90000 7 (by decide) (by decide) (by decide)

/-! ## Character-list string helpers

Go's `strings` package functions, embedded over `List Char` so that every
operation is executable and kernel-decidable. -/

/-- `strings.HasPrefix(s, pat)`: does `s` start with `pat`? -/
def listStartsWith (s pat : List Char) : Bool :=
  match pat, s with
  | [], _ => true
  | _ :: _, [] => false
  | p :: ps, c :: cs => c = p && listStartsWith cs ps

/-- `strings.Contains(s, pat)`: does `s` contain `pat` as a contiguous
substring? -/
def containsSubList (s pat : List Char) : Bool :=
  match s with
  | [] => pat.isEmpty
  | _ :: rest => listStartsWith s pat || containsSubList rest pat

/-- `strings.Split(s, sep)` for a one-character separator: always returns at
least one (possibly empty) field. -/
def splitChar (sep : Char) : List Char → List (List Char)
  | [] => [[]]
  | c :: rest =>
    match splitChar sep rest with
    | [] => [[]]
    | p :: ps => if c = sep then [] :: p :: ps else (c :: p) :: ps

/-- `strings.Join(parts, sep)` for a one-character separator. -/
def joinChar (sep : Char) : List (List Char) → List Char
  | [] => []
  | [p] => p
  | p :: ps => p ++ sep :: joinChar sep ps

/-! ## Branch inspector (pkg/git, `parseBranchRaw`)

`git branch -vv` lines are matched in Go against the anchored regex
`^(\*)*[ ]*([^ ]*)[ ]*([^ ]*)[ ]*(\[[^\]]*\])*[ ]*(.*)$`.  Every
sub-pattern is greedy and the tail `(.*)$` always succeeds, so on
newline-free input the match is the deterministic greedy parse embedded
below: leading stars, spaces, a maximal non-space run (name), spaces, a
maximal non-space run (commit id), spaces, a maximal run of contiguous
`[...]` groups (the capture is the last group, brackets included), spaces,
and the rest as the commit message. -/

/-- `git.BranchStatus`. -/
inductive BranchStatus where
  | sync
  | gone
  | ahead
  | behind
  | conflict
  | detached
deriving DecidableEq

/-- `git.Branch`. -/
structure Branch where
  name : String
  status : BranchStatus
  current : Bool
  commitID : String
  commitMessage : String
deriving DecidableEq

/-- Split a bracket-group body at the first `]`: the regex piece `[^\]]*\]`.
Returns the content before the `]` and the remainder after it, or `none`
when no `]` exists. -/
def splitAtRBracket : List Char → Option (List Char × List Char)
  | [] => none
  | c :: rest =>
    if c = ']' then some ([], rest)
    else
      match splitAtRBracket rest with
      | none => none
      | some (a, b) => some (c :: a, b)

/-- One `\[[^\]]*\]` group: a `[`, content free of `]`, and the closing `]`.
Returns the full group text (brackets included) and the remainder. -/
def takeGroup : List Char → Option (List Char × List Char)
  | [] => none
  | c :: rest =>
    if c = '[' then
      match splitAtRBracket rest with
      | none => none
      | some (content, rest') => some ('[' :: content ++ [']'], rest')
    else none

/-- The greedy repetition `(\[[^\]]*\])*`: consumes contiguous bracket
groups; the capture (first component) is the last group consumed, or the
accumulator when none is.  Each successful `takeGroup` step consumes at
least two characters, so `l.length` steps of fuel always suffice. -/
def takeGroupsFuel : Nat → List Char → List Char → List Char × List Char
  | 0, acc, l => (acc, l)
  | fuel + 1, acc, l =>
    match takeGroup l with
    | some (g, rest) => takeGroupsFuel fuel g rest
    | none => (acc, l)

def takeGroups (acc : List Char) (l : List Char) : List Char × List Char :=
  takeGroupsFuel l.length acc l

/-- The six regex captures of a `git branch -vv` line (capture 0, the line
itself, omitted): stars, name, commit id, tracking description, message. -/
structure BranchParts where
  stars : List Char
  name : List Char
  commitID : List Char
  desc : List Char
  message : List Char
deriving DecidableEq

/-- The greedy match of the branch regex against a line. -/
def parseParts (cs : List Char) : BranchParts :=
  let stars := cs.takeWhile (· = '*')
  let r1 := (cs.dropWhile (· = '*')).dropWhile (· = ' ')
  let name := r1.takeWhile (· ≠ ' ')
  let r2 := (r1.dropWhile (· ≠ ' ')).dropWhile (· = ' ')
  let commitID := r2.takeWhile (· ≠ ' ')
  let r3 := (r2.dropWhile (· ≠ ' ')).dropWhile (· = ' ')
  let gs := takeGroups [] r3
  { stars := stars, name := name, commitID := commitID,
    desc := gs.1, message := gs.2.dropWhile (· = ' ') }

def goneMark : List Char := ['g', 'o', 'n', 'e']

def aheadMark : List Char := ['a', 'h', 'e', 'a', 'd']

def behindMark : List Char := ['b', 'e', 'h', 'i', 'n', 'd']

/-- The status-classification block of `parseBranchRaw`: Go computes
`behind`/`ahead` containment first, then tests `gone`, `ahead && behind`,
`ahead`, `behind`, defaulting to `sync`; an empty description is
`detached`. -/
def classifyDesc (desc : List Char) : BranchStatus :=
  if desc.isEmpty then .detached
  else
    let behind := containsSubList desc behindMark
    let ahead := containsSubList desc aheadMark
    if containsSubList desc goneMark then .gone
    else if ahead && behind then .conflict
    else if ahead then .ahead
    else if behind then .behind
    else .sync

/-- `git.parseBranchRaw(line string) (*Branch, error)`: `none` models the
"missing name" error (an empty capture 2). -/
def parseBranchRaw (line : String) : Option Branch :=
  let p := parseParts line.toList
  if p.name.isEmpty then none
  else
    some
      { name := ⟨p.name⟩
        status := classifyDesc p.desc
        current := !p.stars.isEmpty
        commitID := ⟨p.commitID⟩
        commitMessage := ⟨p.message⟩ }

/-- The classification exactly as the claim words it: absent description →
detached; `gone` in the description → gone regardless of other markers;
both `ahead` and `behind` → conflict; `ahead` alone → ahead; `behind` alone
→ behind; neither → sync. -/
def claimClassify (desc : List Char) : BranchStatus :=
  if desc = [] then .detached
  else if containsSubList desc goneMark then .gone
  else if containsSubList desc aheadMark && containsSubList desc behindMark then .conflict
  else if containsSubList desc aheadMark then .ahead
  else if containsSubList desc behindMark then .behind
  else .sync

theorem classifyDesc_eq_claim (desc : List Char) :
    classifyDesc desc = claimClassify desc := by
  unfold classifyDesc claimClassify
  by_cases h0 : desc = []
  · simp [h0]
  · simp [h0, List.isEmpty_iff]

/-- C3: for every `git branch -vv` line accepted by the branch parser, the
parsed status is exactly the claimed function of the bracketed tracking
description: detached when the description is absent, `gone` taking
precedence over everything, then conflict (`ahead` and `behind` together),
then ahead-only, then behind-only, then sync. -/
theorem parseBranch_status_spec (line : String) (b : Branch)
    (h : parseBranchRaw line = some b) :
    b.status = claimClassify (parseParts line.toList).desc := by
  simp [parseBranchRaw] at h
  rw [← h.2]
  exact classifyDesc_eq_claim (parseParts line.data).desc

/-- Witness for `parseBranch_status_spec` on a concrete diverged-branch
line. -/
theorem parseBranch_status_spec_witness :
    ({ name := "main", status := .conflict, current := true,
       commitID := "1a2b3c",
       commitMessage := "some message" } : Branch).status =
      claimClassify (parseParts "* main 1a2b3c [origin/main: ahead 1, behind 2] some message".toList).desc :=
  parseBranch_status_spec "* main 1a2b3c [origin/main: ahead 1, behind 2] some message"
    { name := "main", status := .conflict, current := true,
      commitID := "1a2b3c", commitMessage := "some message" }
    (by decide)

/-! ## Branch synchronization state machine (pkg/repoutils/remote.go)

`syncBranches` is embedded as a pure function from the fetched branch list,
the default branch, and the uncommitted-change count to the `SyncResult`
and the sequence of git invocations it issues.  The tracked `current`
variable starts empty exactly as Go's `var current string`, and the
physical checked-out branch is recovered from the action log by
`finalBranch`. -/

/-- `repoutils.SyncResult` (the display-only `Name` field is omitted). -/
structure SyncResult where
  uncommitted : Nat
  pushed : List String
  pulled : List String
  deleted : List String
  conflict : List String
  detached : List String
deriving DecidableEq

def SyncResult.empty : SyncResult := ⟨0, [], [], [], [], []⟩

/-- `repoutils.syncBranchTask`. -/
structure SyncBranchTask where
  branch : String
  push : Bool
  pull : Bool
  delete : Bool
deriving DecidableEq

/-- One git invocation issued by the sync run. -/
inductive GitAction where
  | fetch
  | checkout (branch : String)
  | push (branch : String)
  | pull (branch : String)
  | deleteBranch (branch : String)
deriving DecidableEq

/-- The loop state of the planning pass of `syncBranches`: the backup
branch, the tracked current branch, the accumulated action plan and the
accumulated result lists. -/
structure PlanState where
  back : String
  current : String
  tasks : List SyncBranchTask
  result : SyncResult
deriving DecidableEq

/-- The head of the planning loop body: when the branch is the current
one, record it as current and override the backup branch unless the branch
is gone. -/
def planNote (s : PlanState) (b : Branch) : PlanState :=
  if b.current then
    { s with current := b.name,
             back := if b.status = .gone then s.back else b.name }
  else s

theorem planNote_tasks (s : PlanState) (b : Branch) : (planNote s b).tasks = s.tasks := by
  unfold planNote; split <;> rfl

theorem planNote_result (s : PlanState) (b : Branch) : (planNote s b).result = s.result := by
  unfold planNote; split <;> rfl

/-- The switch of the planning loop body: plan ahead→push, behind→pull,
gone→delete (skipping the default branch), and record conflict/detached
branches report-only. -/
def planCase (defaultBranch : String) (s : PlanState) (b : Branch) : PlanState :=
  match b.status with
  | .ahead =>
      { s with tasks := s.tasks ++ [⟨b.name, true, false, false⟩],
               result := { s.result with pushed := s.result.pushed ++ [b.name] } }
  | .behind =>
      { s with tasks := s.tasks ++ [⟨b.name, false, true, false⟩],
               result := { s.result with pulled := s.result.pulled ++ [b.name] } }
  | .gone =>
      if b.name = defaultBranch then s
      else
        { s with tasks := s.tasks ++ [⟨b.name, false, false, true⟩],
                 result := { s.result with deleted := s.result.deleted ++ [b.name] } }
  | .conflict =>
      { s with result := { s.result with conflict := s.result.conflict ++ [b.name] } }
  | .detached =>
      { s with result := { s.result with detached := s.result.detached ++ [b.name] } }
  | .sync => s

/-- One iteration of the planning loop of `syncBranches`: record the
current branch (overriding the backup branch unless the branch is gone),
then dispatch on the branch status. -/
def planBranch (defaultBranch : String) (s : PlanState) (b : Branch) : PlanState :=
  planCase defaultBranch (planNote s b) b

/-- The whole planning pass: backup branch starts at the default branch,
the tracked current branch starts empty. -/
def buildPlan (defaultBranch : String) (branches : List Branch) : PlanState :=
  branches.foldl (planBranch defaultBranch) ⟨defaultBranch, "", [], SyncResult.empty⟩

/-- One iteration of the execution loop: checkout before push/pull when the
branch is not current; checkout the default branch before deleting the
current branch. -/
def execTask (defaultBranch : String) (st : String × List GitAction) (t : SyncBranchTask) :
    String × List GitAction :=
  if t.push || t.pull then
    let st := if st.1 ≠ t.branch then (t.branch, st.2 ++ [.checkout t.branch]) else st
    (st.1, st.2 ++ [if t.push then .push t.branch else .pull t.branch])
  else
    let st := if st.1 = t.branch then (defaultBranch, st.2 ++ [.checkout defaultBranch]) else st
    (st.1, st.2 ++ [.deleteBranch t.branch])

/-- `repoutils.syncBranches`, as the pair (result, issued git actions):
skip entirely for a non-clone remote, fetch with pruning, abort on
uncommitted changes, build the plan, execute it, and end with a checkout of
the backup branch when the tracked current branch differs from it.  Under
the claims' no-git-failure assumption every invocation succeeds, so the
error path never triggers. -/
def syncBranches (cloneURL : String) (uncommitted : Nat) (branches : List Branch)
    (defaultBranch : String) : SyncResult × List GitAction :=
  if cloneURL = "" then (SyncResult.empty, [])
  else
    let log : List GitAction := [.fetch]
    if uncommitted > 0 then ({ SyncResult.empty with uncommitted := uncommitted }, log)
    else
      let ps := buildPlan defaultBranch branches
      if ps.tasks.isEmpty then (ps.result, log)
      else
        let st := ps.tasks.foldl (execTask defaultBranch) (ps.current, log)
        if st.1 ≠ ps.back then (ps.result, st.2 ++ [.checkout ps.back])
        else (ps.result, st.2)

/-- The effect of one git invocation on the checked-out branch. -/
def applyAction (cur : String) : GitAction → String
  | .checkout b => b
  | _ => cur

/-- The branch checked out after a run, starting from `initial`. -/
def finalBranch (initial : String) (log : List GitAction) : String :=
  log.foldl applyAction initial

theorem planBranch_no_default_delete (defaultBranch : String) (s : PlanState) (b : Branch)
    (h1 : ∀ t ∈ s.tasks, t.delete = true → t.branch ≠ defaultBranch)
    (h2 : defaultBranch ∉ s.result.deleted) :
    (∀ t ∈ (planBranch defaultBranch s b).tasks, t.delete = true → t.branch ≠ defaultBranch) ∧
      defaultBranch ∉ (planBranch defaultBranch s b).result.deleted := by
  have e1 := planNote_tasks s b
  have e2 := planNote_result s b
  have hpue : ∀ (name : String) (pu pl : Bool), ∀ t,
      t ∈ s.tasks ++ [(⟨name, pu, pl, false⟩ : SyncBranchTask)] →
      t.delete = true → t.branch ≠ defaultBranch := by
    intro name pu pl t ht hd
    rcases List.mem_append.1 ht with hmem | hmem
    · exact h1 t hmem hd
    · simp at hmem
      rw [hmem] at hd
      simp at hd
  unfold planBranch planCase
  cases hb : b.status
  case sync => simp only [e1, e2]; exact ⟨h1, h2⟩
  case ahead => simp only [e1, e2]; exact ⟨hpue b.name true false, h2⟩
  case behind => simp only [e1, e2]; exact ⟨hpue b.name false true, h2⟩
  case conflict => simp only [e1, e2]; exact ⟨h1, h2⟩
  case detached => simp only [e1, e2]; exact ⟨h1, h2⟩
  case gone =>
    by_cases hn : b.name = defaultBranch
    · simp only [hn, if_true, eq_self_iff_true, if_pos]
      simp only [e1, e2]
      exact ⟨h1, h2⟩
    · simp only [if_neg hn, e1, e2]
      refine ⟨fun t ht hd => ?_, fun hmem => ?_⟩
      · rcases List.mem_append.1 ht with hmem | hmem
        · exact h1 t hmem hd
        · simp at hmem
          rw [hmem]
          exact hn
      · rcases List.mem_append.1 hmem with hmem | hmem
        · exact h2 hmem
        · simp at hmem
          exact hn hmem.symm

theorem foldl_plan_no_default_delete (defaultBranch : String) :
    ∀ (branches : List Branch) (s : PlanState),
      (∀ t ∈ s.tasks, t.delete = true → t.branch ≠ defaultBranch) →
      defaultBranch ∉ s.result.deleted →
      (∀ t ∈ (branches.foldl (planBranch defaultBranch) s).tasks,
        t.delete = true → t.branch ≠ defaultBranch) ∧
        defaultBranch ∉ (branches.foldl (planBranch defaultBranch) s).result.deleted := by
  intro branches
  induction branches with
  | nil => intro s h1 h2; exact ⟨h1, h2⟩
  | cons b rest ih =>
    intro s h1 h2
    have := planBranch_no_default_delete defaultBranch s b h1 h2
    exact ih _ this.1 this.2

/-- C2: the action plan built by `syncBranches` never contains a delete
action for the default branch, and the `Deleted` list of the returned
`SyncResult` never contains the default branch — even when the default
branch is classified gone. -/
theorem sync_default_never_deleted (branches : List Branch) (defaultBranch : String) :
    (∀ t ∈ (buildPlan defaultBranch branches).tasks,
      t.delete = true → t.branch ≠ defaultBranch) ∧
      ∀ cloneURL uncommitted,
        defaultBranch ∉ (syncBranches cloneURL uncommitted branches defaultBranch).1.deleted := by
  have key := foldl_plan_no_default_delete defaultBranch branches
    ⟨defaultBranch, "", [], SyncResult.empty⟩ (by simp) (by simp [SyncResult.empty])
  refine ⟨key.1, fun cloneURL uncommitted => ?_⟩
  unfold syncBranches
  by_cases hc : cloneURL = ""
  · simp [hc, SyncResult.empty]
  · by_cases hu : uncommitted > 0
    · simp [hc, hu, SyncResult.empty]
    · by_cases ht : (buildPlan defaultBranch branches).tasks.isEmpty
      · simpa [hc, hu, ht] using key.2
      · by_cases hb :
          ((buildPlan defaultBranch branches).tasks.foldl (execTask defaultBranch)
            ((buildPlan defaultBranch branches).current, [GitAction.fetch])).1 ≠
            (buildPlan defaultBranch branches).back
        · simpa [hc, hu, ht, hb] using key.2
        · simpa [hc, hu, ht, hb] using key.2

/-- Witness for `sync_default_never_deleted`: a branch list whose gone
default branch survives and whose other gone branch is planned for
deletion. -/
theorem sync_default_never_deleted_witness :
    ("feat" : String) ≠ "main" ∧
      ("main" : String) ∉
        (syncBranches "github.com" 0
          [⟨"main", .gone, true, "a1", "m1"⟩, ⟨"feat", .gone, false, "b2", "m2"⟩]
          "main").1.deleted :=
  ⟨(sync_default_never_deleted
      [⟨"main", .gone, true, "a1", "m1"⟩, ⟨"feat", .gone, false, "b2", "m2"⟩] "main").1
      ⟨"feat", false, false, true⟩ (by decide) (by decide),
    (sync_default_never_deleted
      [⟨"main", .gone, true, "a1", "m1"⟩, ⟨"feat", .gone, false, "b2", "m2"⟩] "main").2
      "github.com" 0⟩

theorem planNote_skip (s : PlanState) (b : Branch) (h : b.current = false) :
    planNote s b = s := by
  unfold planNote; simp [h]

theorem planNote_current (s : PlanState) (b : Branch) (h : b.current = true) :
    (planNote s b).back = (if b.status = .gone then s.back else b.name) ∧
      (planNote s b).current = b.name := by
  unfold planNote; simp [h]

theorem planBranch_back_current (d : String) (s : PlanState) (b : Branch) :
    (planBranch d s b).back = (planNote s b).back ∧
      (planBranch d s b).current = (planNote s b).current := by
  unfold planBranch planCase
  cases hb : b.status
  case gone => by_cases hn : b.name = d <;> simp [hn]
  all_goals exact ⟨rfl, rfl⟩

theorem foldl_plan_skip (d : String) :
    ∀ (l : List Branch) (s : PlanState), (∀ b ∈ l, b.current = false) →
      (l.foldl (planBranch d) s).back = s.back ∧
        (l.foldl (planBranch d) s).current = s.current := by
  intro l
  induction l with
  | nil => intro s _; exact ⟨rfl, rfl⟩
  | cons b rest ih =>
    intro s h
    have hb : b.current = false := h b (by simp)
    have hrest : ∀ x ∈ rest, x.current = false := fun x hx => h x (by simp [hx])
    have step := planBranch_back_current d s b
    rw [planNote_skip s b hb] at step
    have tail := ih (planBranch d s b) hrest
    simp only [List.foldl_cons]
    exact ⟨tail.1.trans step.1, tail.2.trans step.2⟩

theorem planBranch_tasks_delta (d : String) (s : PlanState) (b : Branch) :
    ∃ δ, (planBranch d s b).tasks = s.tasks ++ δ := by
  unfold planBranch planCase
  cases hb : b.status
  case sync => exact ⟨[], by simp [planNote_tasks]⟩
  case ahead => exact ⟨[⟨b.name, true, false, false⟩], by simp [planNote_tasks]⟩
  case behind => exact ⟨[⟨b.name, false, true, false⟩], by simp [planNote_tasks]⟩
  case conflict => exact ⟨[], by simp [planNote_tasks]⟩
  case detached => exact ⟨[], by simp [planNote_tasks]⟩
  case gone =>
    by_cases hn : b.name = d
    · exact ⟨[], by simp [hn, planNote_tasks]⟩
    · exact ⟨[⟨b.name, false, false, true⟩], by simp [hn, planNote_tasks]⟩

theorem foldl_plan_tasks_mono (d : String) :
    ∀ (l : List Branch) (s : PlanState),
      ∃ ts, (l.foldl (planBranch d) s).tasks = s.tasks ++ ts := by
  intro l
  induction l with
  | nil => intro s; exact ⟨[], by simp⟩
  | cons b rest ih =>
    intro s
    obtain ⟨ts, hts⟩ := ih (planBranch d s b)
    obtain ⟨δ, hδ⟩ := planBranch_tasks_delta d s b
    refine ⟨δ ++ ts, ?_⟩
    simp only [List.foldl_cons]
    rw [hts, hδ, List.append_assoc]

theorem planBranch_gone_task (d : String) (s : PlanState) (b : Branch)
    (hg : b.status = .gone) (hn : b.name ≠ d) :
    (planBranch d s b).tasks = s.tasks ++ [⟨b.name, false, false, true⟩] := by
  unfold planBranch planCase
  rw [hg]
  simp [hn, planNote_tasks]

theorem finalBranch_append (init : String) (log : List GitAction) (a : GitAction) :
    finalBranch init (log ++ [a]) = applyAction (finalBranch init log) a := by
  simp [finalBranch, List.foldl_append]

theorem execTask_final (d init cur : String) (log : List GitAction)
    (t : SyncBranchTask) (h : finalBranch init log = cur) :
    finalBranch init (execTask d (cur, log) t).2 = (execTask d (cur, log) t).1 := by
  have h' : List.foldl applyAction init log = cur := h
  unfold execTask
  cases hq : t.push <;> cases hr : t.pull <;>
    by_cases hc : cur = t.branch <;>
      simp [hq, hr, hc, finalBranch, List.foldl_append, applyAction, h']

theorem syncBranches_clean_log (cloneURL : String) (branches : List Branch) (d : String)
    (hclone : cloneURL ≠ "") :
    (syncBranches cloneURL 0 branches d).2 =
      (if (buildPlan d branches).tasks.isEmpty then [GitAction.fetch]
       else
        if ((buildPlan d branches).tasks.foldl (execTask d)
              ((buildPlan d branches).current, [GitAction.fetch])).1 ≠
            (buildPlan d branches).back then
          ((buildPlan d branches).tasks.foldl (execTask d)
              ((buildPlan d branches).current, [GitAction.fetch])).2 ++
            [GitAction.checkout (buildPlan d branches).back]
        else
          ((buildPlan d branches).tasks.foldl (execTask d)
              ((buildPlan d branches).current, [GitAction.fetch])).2) := by
  unfold syncBranches
  simp only [hclone, if_false, ite_false, gt_iff_lt, lt_self_iff_false]
  split
  · rfl
  · split <;> rfl

theorem foldl_exec_final (d init : String) :
    ∀ (tasks : List SyncBranchTask) (cur : String) (log : List GitAction),
      finalBranch init log = cur →
      finalBranch init ((tasks.foldl (execTask d) (cur, log)).2) =
        (tasks.foldl (execTask d) (cur, log)).1 := by
  intro tasks
  induction tasks with
  | nil => intro cur log h; simpa using h
  | cons t rest ih =>
    intro cur log h
    simp only [List.foldl_cons]
    exact ih (execTask d (cur, log) t).1 (execTask d (cur, log) t).2
      (execTask_final d init cur log t h)

/-- C1: for a sync run over a branch list with a unique initially
checked-out branch `cb` (clone remote configured, clean working tree, no
git failure), the finally checked-out branch — recovered from the issued
action log — equals `cb` unless `cb` was classified gone, in which case it
equals the default branch; and the backup branch computed by the planning
pass is the default branch overridden by `cb` exactly when `cb` is not
gone. -/
theorem sync_final_branch (cloneURL defaultBranch : String)
    (pre post : List Branch) (cb : Branch)
    (hclone : cloneURL ≠ "") (hcb : cb.current = true)
    (hpre : ∀ b ∈ pre, b.current = false)
    (hpost : ∀ b ∈ post, b.current = false) :
    finalBranch cb.name
        (syncBranches cloneURL 0 (pre ++ cb :: post) defaultBranch).2 =
      (if cb.status = .gone then defaultBranch else cb.name) ∧
      (buildPlan defaultBranch (pre ++ cb :: post)).back =
        (if cb.status = .gone then defaultBranch else cb.name) := by
  have hfold : buildPlan defaultBranch (pre ++ cb :: post) =
      post.foldl (planBranch defaultBranch)
        (planBranch defaultBranch
          (pre.foldl (planBranch defaultBranch) ⟨defaultBranch, "", [], SyncResult.empty⟩) cb) := by
    simp [buildPlan, List.foldl_append]
  have h₁ := foldl_plan_skip defaultBranch pre ⟨defaultBranch, "", [], SyncResult.empty⟩ hpre
  have h₂bc := planBranch_back_current defaultBranch
    (pre.foldl (planBranch defaultBranch) ⟨defaultBranch, "", [], SyncResult.empty⟩) cb
  have h₂n := planNote_current
    (pre.foldl (planBranch defaultBranch) ⟨defaultBranch, "", [], SyncResult.empty⟩) cb hcb
  have h₃ := foldl_plan_skip defaultBranch post
    (planBranch defaultBranch
      (pre.foldl (planBranch defaultBranch) ⟨defaultBranch, "", [], SyncResult.empty⟩) cb) hpost
  have hback : (buildPlan defaultBranch (pre ++ cb :: post)).back =
      (if cb.status = .gone then defaultBranch else cb.name) := by
    rw [hfold, h₃.1, h₂bc.1, h₂n.1, h₁.1]
  have hcur : (buildPlan defaultBranch (pre ++ cb :: post)).current = cb.name := by
    rw [hfold, h₃.2, h₂bc.2, h₂n.2]
  refine ⟨?_, hback⟩
  have hgone_default : (buildPlan defaultBranch (pre ++ cb :: post)).tasks.isEmpty = true →
      cb.status = .gone → cb.name = defaultBranch := by
    intro ht hg
    by_contra hn
    have h2t := planBranch_gone_task defaultBranch
      (pre.foldl (planBranch defaultBranch) ⟨defaultBranch, "", [], SyncResult.empty⟩) cb hg hn
    obtain ⟨ts, hts⟩ := foldl_plan_tasks_mono defaultBranch post
      (planBranch defaultBranch
        (pre.foldl (planBranch defaultBranch) ⟨defaultBranch, "", [], SyncResult.empty⟩) cb)
    rw [hfold] at ht
    rw [hts, h2t] at ht
    simp [List.isEmpty_iff] at ht
  rw [syncBranches_clean_log cloneURL (pre ++ cb :: post) defaultBranch hclone]
  by_cases ht : (buildPlan defaultBranch (pre ++ cb :: post)).tasks.isEmpty
  · rw [if_pos ht]
    have hfetch : finalBranch cb.name [GitAction.fetch] = cb.name := by
      simp [finalBranch, applyAction]
    rw [hfetch]
    by_cases hg : cb.status = .gone
    · rw [if_pos hg, hgone_default ht hg]
    · rw [if_neg hg]
  · rw [if_neg ht]
    have hstart : finalBranch cb.name [GitAction.fetch] =
        (buildPlan defaultBranch (pre ++ cb :: post)).current := by
      simp [finalBranch, applyAction, hcur]
    have hstf := foldl_exec_final defaultBranch cb.name
      (buildPlan defaultBranch (pre ++ cb :: post)).tasks
      (buildPlan defaultBranch (pre ++ cb :: post)).current [GitAction.fetch] hstart
    by_cases hb :
        ((buildPlan defaultBranch (pre ++ cb :: post)).tasks.foldl (execTask defaultBranch)
          ((buildPlan defaultBranch (pre ++ cb :: post)).current, [GitAction.fetch])).1 ≠
          (buildPlan defaultBranch (pre ++ cb :: post)).back
    · rw [if_pos hb, finalBranch_append]
      simp [applyAction, hback]
    · rw [if_neg hb]
      push_neg at hb
      rw [hstf, hb, hback]

/-- Witness for `sync_final_branch`: the current branch is gone, so the run
ends on the default branch. -/
theorem sync_final_branch_witness :
    finalBranch "feat"
        (syncBranches "github.com" 0
          [⟨"main", .sync, false, "a1", "m1"⟩, ⟨"feat", .gone, true, "b2", "m2"⟩]
          "main").2 =
      (if BranchStatus.gone = .gone then "main" else "feat") ∧
      (buildPlan "main"
          [⟨"main", .sync, false, "a1", "m1"⟩, ⟨"feat", .gone, true, "b2", "m2"⟩]).back =
        (if BranchStatus.gone = .gone then "main" else "feat") :=
  sync_final_branch "github.com" "main"
    [⟨"main", .sync, false, "a1", "m1"⟩] [] ⟨"feat", .gone, true, "b2", "m2"⟩
    (by decide) (by decide) (by decide) (by decide)

/-- C6: when the uncommitted-change count is positive (and the remote is a
clone remote so the sync actually runs), `syncBranches` succeeds with a
result whose `Uncommitted` field is exactly that count and whose pushed,
pulled and deleted lists are empty, and no branch action — checkout, push,
pull or branch delete — is executed (only the initial fetch). -/
theorem sync_uncommitted_aborts (cloneURL : String) (branches : List Branch)
    (defaultBranch : String) (n : Nat) (hclone : cloneURL ≠ "") (hn : 0 < n) :
    (syncBranches cloneURL n branches defaultBranch).1.uncommitted = n ∧
      (syncBranches cloneURL n branches defaultBranch).1.pushed = [] ∧
      (syncBranches cloneURL n branches defaultBranch).1.pulled = [] ∧
      (syncBranches cloneURL n branches defaultBranch).1.deleted = [] ∧
      ∀ a ∈ (syncBranches cloneURL n branches defaultBranch).2, a = GitAction.fetch := by
  unfold syncBranches
  simp [hclone, hn, SyncResult.empty]

/-- Witness for `sync_uncommitted_aborts` at a concrete dirty repository. -/
theorem sync_uncommitted_aborts_witness :
    (syncBranches "github.com" 3 [⟨"dev", .ahead, true, "c3", "m3"⟩] "main").1.uncommitted = 3 ∧
      (syncBranches "github.com" 3 [⟨"dev", .ahead, true, "c3", "m3"⟩] "main").1.pushed = [] ∧
      (syncBranches "github.com" 3 [⟨"dev", .ahead, true, "c3", "m3"⟩] "main").1.pulled = [] ∧
      (syncBranches "github.com" 3 [⟨"dev", .ahead, true, "c3", "m3"⟩] "main").1.deleted = [] ∧
      ∀ a ∈ (syncBranches "github.com" 3 [⟨"dev", .ahead, true, "c3", "m3"⟩] "main").2,
        a = GitAction.fetch :=
  sync_uncommitted_aborts "github.com" [⟨"dev", .ahead, true, "c3", "m3"⟩] "main" 3
    (by decide) (by decide)

/-! ## Resolution engine (pkg/choice, pkg/db)

The repository store is an external SQL collaborator; its queries are
modelled from the `QueryRepositoryOptions` SQL construction in the db
package: equality `WHERE` clauses for remote/owner, a `LIKE %q%` clause
(substring match) for name search, and `ORDER BY score DESC` /
`ORDER BY visit_time DESC` orderings. -/

/-- `db.Repository` (the fields the resolution engine reads). -/
structure Repository where
  id : String
  remote : String
  owner : String
  name : String
  path : Option String
  visitTime : Nat
  score : Nat
  newCreated : Bool
deriving DecidableEq

/-- `db.BuildRepoID`. -/
def buildRepoID (remote owner name : String) : String :=
  remote ++ ":" ++ owner ++ "/" ++ name

/-- `choice.ParseOwner`: split on `/`; the last field is the name, the
remaining fields joined by `/` form the owner. -/
def parseOwner (path : String) : String × String :=
  let items := splitChar '/' path.toList
  (⟨joinChar '/' items.dropLast⟩, ⟨(items.getLast?.getD [])⟩)

/-- `db.Repository.GetPath`: the explicit path when set, else
`filepath.Join(workspace, remote, owner, name)` (joining clean,
separator-free components). -/
def getPath (workspace : String) (r : Repository) : String :=
  match r.path with
  | some p => p
  | none => workspace ++ "/" ++ r.remote ++ "/" ++ r.owner ++ "/" ++ r.name

/-- A configured remote: its name and its clone host (empty when the remote
is not a clone remote). -/
structure RemoteConfig where
  name : String
  clone : String
deriving DecidableEq

/-- `remoteapi.GitHubHost`. -/
def gitHubHost : String := "github.com"

/-- `choice.latestQueryKeyword`. -/
def latestQueryKeyword : String := "-"

inductive ResolveError where
  | emptyHost
  | noRemoteWithHost
  | urlNotRepo
  | invalidURL
  | cannotFindRepo
  | fuzzyNotFound
  | selectNotFound
  | unknownRemote
  | userCancelled
deriving DecidableEq

deriving instance DecidableEq for Except

/-- `choice.Mode`. -/
inductive Mode where
  | fuzzy
  | select
deriving DecidableEq

/-- `choice.OneOptions`. -/
structure OneOptions where
  mode : Mode
  forceLocal : Bool
  searchRemote : Bool
deriving DecidableEq

/-- The context a `Choice` reads: working directory, workspace root,
remote configurations, the repository store, and the interactive
selector collaborator. -/
structure Ctx where
  workDir : String
  workspace : String
  remoteConfigs : List RemoteConfig
  store : List Repository
  selector : List String → Except ResolveError Nat

def hasRemote (ctx : Ctx) (name : String) : Bool :=
  ctx.remoteConfigs.any (fun rc => rc.name = name)

/-- The `WHERE` clauses of a score-ordered repository query: optional
remote equality and optional name `LIKE %q%` (substring) search. -/
def matchQuery (remote nameSearch : Option String) (r : Repository) : Bool :=
  (match remote with
    | some rm => r.remote = rm
    | none => true) &&
  (match nameSearch with
    | some q => containsSubList r.name.toList q.toList
    | none => true)

/-- Insertion step of the `ORDER BY score DESC` ordering. -/
def insertScored (x : Repository) : List Repository → List Repository
  | [] => [x]
  | y :: ys => if y.score < x.score then x :: y :: ys else y :: insertScored x ys

def sortByScore (l : List Repository) : List Repository :=
  l.foldr insertScored []

/-- `db.QueryRepos` with `OrderByScore`: filter, then order by descending
score. -/
def queryScoreDesc (store : List Repository) (remote nameSearch : Option String) :
    List Repository :=
  sortByScore (store.filter (matchQuery remote nameSearch))

/-- `db.GetRepo` by id. -/
def getRepoDB (store : List Repository) (id : String) : Option Repository :=
  store.find? (fun r => r.id = id)

/-- `choice.oneFromID`: on a store hit return the stored repository; on a
miss return an error under `ForceLocal`, else an unpersisted placeholder
with `NewCreated` set (the remaining fields keep their Go zero values, and
nothing is inserted into the store). -/
def oneFromID (ctx : Ctx) (remote owner name : String) (opts : OneOptions) :
    Except ResolveError Repository :=
  let id := buildRepoID remote owner name
  match getRepoDB ctx.store id with
  | some repo => .ok repo
  | none =>
    if opts.forceLocal then .error .cannotFindRepo
    else
      .ok { id := id, remote := remote, owner := owner, name := name,
            path := none, visitTime := 0, score := 0, newCreated := true }

/-- The loop body of `choice.fuzzyOne` over the score-ordered query result:
skip the repository whose path equals the working directory; return
immediately the repository whose path is a prefix of the working directory;
otherwise accumulate, and finally return the first accumulated
repository. -/
def fuzzyScan (workDir workspace : String) (filtered : List Repository) :
    List Repository → Except ResolveError Repository
  | [] =>
    match filtered with
    | [] => .error .fuzzyNotFound
    | r :: _ => .ok r
  | r :: rest =>
    let path := getPath workspace r
    if workDir = path then fuzzyScan workDir workspace filtered rest
    else if listStartsWith workDir.toList path.toList then .ok r
    else fuzzyScan workDir workspace (filtered ++ [r]) rest

/-- `choice.fuzzyOne`. -/
def fuzzyOne (ctx : Ctx) (remote nameSearch : Option String) :
    Except ResolveError Repository :=
  fuzzyScan ctx.workDir ctx.workspace [] (queryScoreDesc ctx.store remote nameSearch)

/-- The `WHERE` clauses of `selectOne`'s query: optional remote and owner
equality. -/
def matchOwnerQuery (remote owner : Option String) (r : Repository) : Bool :=
  (match remote with
    | some rm => r.remote = rm
    | none => true) &&
  (match owner with
    | some ow => r.owner = ow
    | none => true)

/-- Insertion step of the `ORDER BY visit_time DESC` ordering. -/
def insertVisited (x : Repository) : List Repository → List Repository
  | [] => [x]
  | y :: ys => if y.visitTime < x.visitTime then x :: y :: ys else y :: insertVisited x ys

def sortByVisitTime (l : List Repository) : List Repository :=
  l.foldr insertVisited []

/-- `db.DisplayRepoLevel` and `Repository.Display`. -/
inductive DisplayLevel where
  | remote
  | owner
  | name
deriving DecidableEq

def displayRepo (level : DisplayLevel) (r : Repository) : String :=
  match level with
  | .owner => r.owner ++ "/" ++ r.name
  | .name => r.name
  | .remote => r.remote ++ ":" ++ r.owner ++ "/" ++ r.name

/-- `choice.selectOne`: query (latest → visit-time order limited to 5, else
score order), drop repositories whose path prefixes the working directory,
and defer to the interactive selector (assumed to return an in-range index;
an out-of-range index is mapped to the no-candidate error). -/
def selectOne (ctx : Ctx) (remote owner : Option String) (latest : Bool) :
    Except ResolveError Repository :=
  let repos :=
    if latest then (sortByVisitTime (ctx.store.filter (matchOwnerQuery remote owner))).take 5
    else sortByScore (ctx.store.filter (matchOwnerQuery remote owner))
  let level : DisplayLevel :=
    match remote, owner with
    | none, none => .remote
    | some _, none => .owner
    | _, _ => .name
  let filtered := repos.filter
    (fun r => !listStartsWith ctx.workDir.toList (getPath ctx.workspace r).toList)
  match filtered with
  | [] => .error .selectNotFound
  | _ :: _ =>
    match ctx.selector (filtered.map (displayRepo level)) with
    | .error e => .error e
    | .ok idx =>
      match filtered.get? idx with
      | some r => .ok r
      | none => .error .selectNotFound

/-- `choice.chooseOne`: rewrite a `-` remote or query token into "latest"
mode, then dispatch to select or fuzzy resolution. -/
def chooseOne (ctx : Ctx) (remote query : Option String) (opts : OneOptions) :
    Except ResolveError Repository :=
  let rl : Option String × Bool :=
    match remote with
    | some r => if r = latestQueryKeyword then (none, true) else (some r, false)
    | none => (none, false)
  let ql : Option String × Bool :=
    match query with
    | some q => if q = latestQueryKeyword then (none, true) else (some q, false)
    | none => (none, false)
  if rl.2 || ql.2 then selectOne ctx rl.1 ql.1 true
  else
    match opts.mode with
    | .select => selectOne ctx rl.1 ql.1 false
    | .fuzzy => fuzzyOne ctx rl.1 ql.1

/-- `choice.oneFromHead`: a head naming a configured remote (or the `-`
keyword) goes through `chooseOne`; anything else is a fuzzy name-search
keyword. -/
def oneFromHead (ctx : Ctx) (head : String) (opts : OneOptions) :
    Except ResolveError Repository :=
  if hasRemote ctx head || head = latestQueryKeyword then
    chooseOne ctx (some head) none opts
  else fuzzyOne ctx none (some head)

/-! ## URL and SSH resolution (choice.oneFromURL / oneFromSsh) -/

/-- The pieces of a parsed URL that `oneFromURL` reads: `Hostname()` and
`Path`. -/
structure ParsedURL where
  host : String
  path : String
deriving DecidableEq

/-- `url.Parse` followed by `Hostname()`/`Path`, for plain
`scheme://host/path` URLs without userinfo, port, query or fragment (the
shapes the URL claims concern): the host is everything up to the first
slash after the scheme, the path is the rest. -/
def parseHTTPURL (s : String) : Option ParsedURL :=
  let cs := s.toList
  let core : Option (List Char) :=
    if listStartsWith cs "https://".toList then some (cs.drop 8)
    else if listStartsWith cs "http://".toList then some (cs.drop 7)
    else none
  match core with
  | none => none
  | some rest =>
    some ⟨⟨rest.takeWhile (· ≠ '/')⟩, ⟨rest.dropWhile (· ≠ '/')⟩⟩

/-- The host-matching loop of `oneFromURL`: skip non-clone remotes, take
the first whose clone host equals the URL host; the flag records whether
the remote is treated as GitLab (any clone host other than github.com). -/
def findTargetRemote : List RemoteConfig → String → Option (RemoteConfig × Bool)
  | [], _ => none
  | rc :: rest, host =>
    if rc.clone = "" then findTargetRemote rest host
    else if rc.clone = host then some (rc, rc.clone != gitHubHost)
    else findTargetRemote rest host

/-- `strings.Split` into string fields. -/
def strSplit (sep : Char) (s : String) : List String :=
  (splitChar sep s.toList).map (fun l => (⟨l⟩ : String))

/-- `strings.Join` of string fields. -/
def strJoin (sep : Char) (parts : List String) : String :=
  ⟨joinChar sep (parts.map String.toList)⟩

/-- The segment-collection loop of `oneFromURL`: skip empty segments; for
GitLab stop at a literal `-` segment; for GitHub stop once two segments
are collected. -/
def collectParts (gitlab : Bool) : List String → List String → List String
  | [], acc => acc
  | s :: rest, acc =>
    if s = "" then collectParts gitlab rest acc
    else if gitlab then
      if s = "-" then acc else collectParts gitlab rest (acc ++ [s])
    else if acc.length = 2 then acc
    else collectParts gitlab rest (acc ++ [s])

/-- `choice.oneFromURL` after `url.Parse`: match the host against the
configured remotes, collect owner/name path segments, and resolve through
`oneFromID`. -/
def oneFromURLParsed (ctx : Ctx) (u : ParsedURL) (opts : OneOptions) :
    Except ResolveError Repository :=
  if u.host = "" then .error .emptyHost
  else
    match findTargetRemote ctx.remoteConfigs u.host with
    | none => .error .noRemoteWithHost
    | some (rc, gitlab) =>
      let parts := collectParts gitlab (strSplit '/' u.path) []
      if parts.length < 2 then .error .urlNotRepo
      else
        let pr := parseOwner (strJoin '/' parts)
        oneFromID ctx rc.name pr.1 pr.2 opts

/-- `choice.oneFromURL` from the raw URL text. -/
def oneFromURL (ctx : Ctx) (s : String) (opts : OneOptions) :
    Except ResolveError Repository :=
  match parseHTTPURL s with
  | none => .error .invalidURL
  | some u => oneFromURLParsed ctx u opts

/-- `strings.TrimPrefix`. -/
def trimPrefixList (pre l : List Char) : List Char :=
  if listStartsWith l pre then l.drop pre.length else l

/-- `strings.TrimSuffix`. -/
def trimSuffixList (suf l : List Char) : List Char :=
  if listStartsWith l.reverse suf.reverse then l.take (l.length - suf.length) else l

/-- `strings.Replace(s, old, new, 1)` for one-character patterns. -/
def replaceFirstChar (oldC newC : Char) : List Char → List Char
  | [] => []
  | c :: rest => if c = oldC then newC :: rest else c :: replaceFirstChar oldC newC rest

/-- The SSH rewriting of `oneFromSsh`: strip `git@` and `.git`, turn the
first `:` into `/`, and prefix `https://`. -/
def sshToURL (ssh : String) : String :=
  let fullName := trimSuffixList ".git".toList (trimPrefixList "git@".toList ssh.toList)
  ⟨"https://".toList ++ replaceFirstChar ':' '/' fullName⟩

/-- `choice.oneFromSsh`: rewrite to a URL and reuse the URL path. -/
def oneFromSsh (ctx : Ctx) (ssh : String) (opts : OneOptions) :
    Except ResolveError Repository :=
  oneFromURL ctx (sshToURL ssh) opts

/-! ### Concrete contexts used by witnesses and counterexamples -/

/-- A context with a GitHub-hosted and a GitLab-hosted remote and an empty
store. -/
def ctxHosts : Ctx :=
  { workDir := "/home/u", workspace := "/ws",
    remoteConfigs := [⟨"github", "github.com"⟩, ⟨"gitlab", "gitlab.example.com"⟩],
    store := [], selector := fun _ => .error .userCancelled }

/-- A high-scored repository whose name contains "bar". -/
def repoBar2 : Repository :=
  ⟨"github:acme/bar2", "github", "acme", "bar2", some "/w/a/bar2", 0, 100, false⟩

/-- A low-scored repository the working directory is strictly inside. -/
def repoBar : Repository :=
  ⟨"github:acme/bar", "github", "acme", "bar", some "/w/a/bar", 0, 1, false⟩

/-- A context whose working directory sits strictly inside `repoBar`. -/
def ctxInside : Ctx :=
  { workDir := "/w/a/bar/sub", workspace := "/ws", remoteConfigs := [],
    store := [repoBar2, repoBar], selector := fun _ => .error .userCancelled }

/-- C10: a direct (remote, owner, name) lookup that misses the store
returns the cannot-find error under `ForceLocal`, and otherwise an
unpersisted placeholder carrying `NewCreated`, the id `remote:owner/name`,
and the given coordinates, while the store does not contain (and is not
given) any such repository. -/
theorem oneFromID_miss_spec (ctx : Ctx) (remote owner name : String)
    (opts opts' : OneOptions)
    (hmiss : getRepoDB ctx.store (buildRepoID remote owner name) = none)
    (hforce : opts.forceLocal = true) (hnof : opts'.forceLocal = false) :
    oneFromID ctx remote owner name opts = .error .cannotFindRepo ∧
      oneFromID ctx remote owner name opts' =
        .ok { id := buildRepoID remote owner name, remote := remote, owner := owner,
              name := name, path := none, visitTime := 0, score := 0, newCreated := true } ∧
      buildRepoID remote owner name = remote ++ ":" ++ owner ++ "/" ++ name ∧
      ∀ x ∈ ctx.store, x.id ≠ buildRepoID remote owner name := by
  refine ⟨?_, ?_, rfl, ?_⟩
  · simp only [oneFromID, hmiss, hforce, if_true, ite_true]
  · simp only [oneFromID, hmiss, hnof, if_false, ite_false, Bool.false_eq_true]
  · intro x hx
    have := List.find?_eq_none.mp hmiss x hx
    simpa using this

/-- Witness for `oneFromID_miss_spec` on the empty store. -/
theorem oneFromID_miss_spec_witness :
    oneFromID ctxHosts "github" "acme" "widget" ⟨.fuzzy, true, false⟩ =
        .error .cannotFindRepo ∧
      oneFromID ctxHosts "github" "acme" "widget" ⟨.fuzzy, false, false⟩ =
        .ok { id := buildRepoID "github" "acme" "widget", remote := "github",
              owner := "acme", name := "widget", path := none, visitTime := 0,
              score := 0, newCreated := true } ∧
      buildRepoID "github" "acme" "widget" = "github" ++ ":" ++ "acme" ++ "/" ++ "widget" ∧
      ∀ x ∈ ctxHosts.store, x.id ≠ buildRepoID "github" "acme" "widget" :=
  oneFromID_miss_spec ctxHosts "github" "acme" "widget"
    ⟨.fuzzy, true, false⟩ ⟨.fuzzy, false, false⟩ (by decide) rfl rfl

/-! ### Fuzzy resolution properties (C9) -/

/-- The working directory sits strictly inside the repository: its path is
a proper string prefix of the working directory. -/
def insideRepo (workDir workspace : String) (r : Repository) : Bool :=
  (getPath workspace r != workDir) &&
    listStartsWith workDir.toList (getPath workspace r).toList

/-- Descending-score ordering as a pairwise relation. -/
def ScoreSorted (l : List Repository) : Prop :=
  List.Pairwise (fun a b => b.score ≤ a.score) l

theorem mem_insertScored {x y : Repository} :
    ∀ {l : List Repository}, x ∈ insertScored y l ↔ x = y ∨ x ∈ l := by
  intro l
  induction l with
  | nil => simp [insertScored]
  | cons z zs ih =>
    unfold insertScored
    by_cases hz : z.score < y.score
    · simp [hz]
    · simp only [hz, if_false, ite_false, List.mem_cons, ih]
      tauto

theorem mem_sortByScore {x : Repository} :
    ∀ {l : List Repository}, x ∈ sortByScore l ↔ x ∈ l := by
  intro l
  induction l with
  | nil => simp [sortByScore]
  | cons z zs ih =>
    simp only [sortByScore, List.foldr_cons] at *
    rw [mem_insertScored, ih]
    simp

theorem sorted_insertScored {y : Repository} :
    ∀ {l : List Repository}, ScoreSorted l → ScoreSorted (insertScored y l) := by
  intro l
  induction l with
  | nil => intro _; simp [insertScored, ScoreSorted]
  | cons z zs ih =>
    intro h
    have hz := List.pairwise_cons.1 h
    unfold insertScored
    by_cases hlt : z.score < y.score
    · rw [if_pos hlt]
      refine List.pairwise_cons.2 ⟨?_, h⟩
      intro b hb
      rcases List.mem_cons.1 hb with rfl | hb'
      · exact le_of_lt hlt
      · exact le_trans (hz.1 b hb') (le_of_lt hlt)
    · rw [if_neg hlt]
      refine List.pairwise_cons.2 ⟨?_, ih hz.2⟩
      intro b hb
      rcases mem_insertScored.1 hb with rfl | hb'
      · omega
      · exact hz.1 b hb'

theorem sorted_sortByScore (l : List Repository) : ScoreSorted (sortByScore l) := by
  induction l with
  | nil => simp [sortByScore, ScoreSorted]
  | cons z zs ih =>
    simp only [sortByScore, List.foldr_cons] at *
    exact sorted_insertScored ih

/-- The head-selection of `fuzzyScan` when the loop exhausts the list. -/
def headRes (l : List Repository) : Except ResolveError Repository :=
  match l with
  | [] => .error .fuzzyNotFound
  | r :: _ => .ok r

theorem fuzzyScan_no_contain (wd ws : String) :
    ∀ (l filtered : List Repository),
      (∀ r ∈ l, insideRepo wd ws r = false) →
      fuzzyScan wd ws filtered l =
        headRes (filtered ++ l.filter (fun r => getPath ws r != wd)) := by
  intro l
  induction l with
  | nil => intro filtered _; simp [fuzzyScan, headRes]
  | cons r rest ih =>
    intro filtered h
    have hr := h r (by simp)
    have hrest : ∀ x ∈ rest, insideRepo wd ws x = false := fun x hx => h x (by simp [hx])
    unfold fuzzyScan
    by_cases heq : wd = getPath ws r
    · rw [if_pos heq, ih filtered hrest]
      have hbne : (getPath ws r != wd) = false := by simp [heq]
      rw [List.filter_cons, hbne]
      simp
    · rw [if_neg heq]
      have hbne : (getPath ws r != wd) = true := by
        simp only [bne_iff_ne, ne_eq]
        exact fun e => heq e.symm
      have hsw : listStartsWith wd.toList (getPath ws r).toList = false := by
        by_contra hcon
        rw [Bool.not_eq_false] at hcon
        rw [insideRepo, hbne, hcon] at hr
        simp at hr
      rw [hsw]
      simp only [Bool.false_eq_true, if_false, ite_false]
      rw [ih (filtered ++ [r]) hrest, List.filter_cons, hbne]
      simp [List.append_assoc]

theorem fuzzyScan_contain (wd ws : String) :
    ∀ (l filtered : List Repository),
      (∃ x ∈ l, insideRepo wd ws x = true) →
      ∃ r, fuzzyScan wd ws filtered l = .ok r ∧ r ∈ l ∧ insideRepo wd ws r = true := by
  intro l
  induction l with
  | nil =>
    intro filtered hex
    obtain ⟨x, hx, _⟩ := hex
    simp at hx
  | cons y rest ih =>
    intro filtered hex
    unfold fuzzyScan
    by_cases heq : wd = getPath ws y
    · rw [if_pos heq]
      have hyf : insideRepo wd ws y = false := by simp [insideRepo, heq]
      have hex' : ∃ x ∈ rest, insideRepo wd ws x = true := by
        obtain ⟨x, hx, hin⟩ := hex
        rcases List.mem_cons.1 hx with rfl | hx'
        · rw [hyf] at hin; cases hin
        · exact ⟨x, hx', hin⟩
      obtain ⟨r, h1, h2, h3⟩ := ih filtered hex'
      exact ⟨r, h1, by simp [h2], h3⟩
    · by_cases hsw : listStartsWith wd.toList (getPath ws y).toList = true
      · rw [if_neg heq, hsw]
        simp only [if_true, ite_true]
        refine ⟨y, rfl, by simp, ?_⟩
        rw [insideRepo, hsw]
        have : (getPath ws y != wd) = true := by
          simp only [bne_iff_ne, ne_eq]
          exact fun e => heq e.symm
        rw [this]
        rfl
      · rw [if_neg heq]
        rw [Bool.not_eq_true] at hsw
        rw [hsw]
        simp only [Bool.false_eq_true, if_false, ite_false]
        have hyf : insideRepo wd ws y = false := by
          rw [insideRepo, hsw]
          simp
        have hex' : ∃ x ∈ rest, insideRepo wd ws x = true := by
          obtain ⟨x, hx, hin⟩ := hex
          rcases List.mem_cons.1 hx with rfl | hx'
          · rw [hyf] at hin; cases hin
          · exact ⟨x, hx', hin⟩
        obtain ⟨r, h1, h2, h3⟩ := ih (filtered ++ [y]) hex'
        exact ⟨r, h1, by simp [h2], h3⟩

theorem queryScoreDesc_none (store : List Repository) :
    queryScoreDesc store none none = sortByScore store := by
  unfold queryScoreDesc
  congr 1
  exact List.filter_eq_self.mpr (fun x _ => rfl)

/-- A context whose working directory is outside every stored repository. -/
def ctxTop : Ctx :=
  { workDir := "/elsewhere", workspace := "/ws", remoteConfigs := [],
    store := [repoBar2, repoBar], selector := fun _ => .error .userCancelled }

/-- C9 (amended): with empty head and query, fuzzy mode resolves through
`fuzzyOne` over the whole store and returns the highest-scored repository
after skipping any repository whose path equals the working directory; when
the working directory is strictly inside some repository of the query
result (proper string-prefix containment), that repository is returned
instead — and this in-repository exception applies to every fuzzy query,
name-filtered or not, so also when disambiguating head/query tokens were
given; a head that names no configured remote is exactly such a
name-filtered fuzzy query. -/
theorem fuzzy_resolution_spec :
    (∀ (ctx : Ctx) (opts : OneOptions), opts.mode = .fuzzy →
      chooseOne ctx none none opts = fuzzyOne ctx none none) ∧
    (∀ (ctx : Ctx) (r : Repository),
      (∀ x ∈ ctx.store, insideRepo ctx.workDir ctx.workspace x = false) →
      fuzzyOne ctx none none = .ok r →
      r ∈ ctx.store ∧ getPath ctx.workspace r ≠ ctx.workDir ∧
        ∀ x ∈ ctx.store, getPath ctx.workspace x ≠ ctx.workDir → x.score ≤ r.score) ∧
    (∀ (ctx : Ctx) (remote search : Option String) (r : Repository),
      r ∈ queryScoreDesc ctx.store remote search →
      insideRepo ctx.workDir ctx.workspace r = true →
      (∀ x ∈ queryScoreDesc ctx.store remote search, x ≠ r →
        insideRepo ctx.workDir ctx.workspace x = false) →
      fuzzyOne ctx remote search = .ok r) ∧
    (∀ (ctx : Ctx) (head : String) (opts : OneOptions),
      hasRemote ctx head = false → head ≠ latestQueryKeyword →
      oneFromHead ctx head opts = fuzzyOne ctx none (some head)) := by
  refine ⟨?_, ?_, ?_, ?_⟩
  · intro ctx opts hm
    simp [chooseOne, hm]
  · intro ctx r hnc hok
    rw [fuzzyOne] at hok
    have hq : ∀ x ∈ queryScoreDesc ctx.store none none,
        insideRepo ctx.workDir ctx.workspace x = false := by
      intro x hx
      rw [queryScoreDesc_none] at hx
      exact hnc x (mem_sortByScore.1 hx)
    rw [fuzzyScan_no_contain _ _ _ [] hq, List.nil_append] at hok
    cases hfil : (queryScoreDesc ctx.store none none).filter
        (fun x => getPath ctx.workspace x != ctx.workDir) with
    | nil => rw [hfil] at hok; simp [headRes] at hok
    | cons r0 rest =>
      rw [hfil] at hok
      simp only [headRes, Except.ok.injEq] at hok
      subst hok
      have hr0fil : r0 ∈ (queryScoreDesc ctx.store none none).filter
          (fun x => getPath ctx.workspace x != ctx.workDir) := by
        rw [hfil]; exact List.mem_cons_self r0 rest
      have hr0q : r0 ∈ queryScoreDesc ctx.store none none :=
        List.mem_of_mem_filter hr0fil
      have hr0ne : getPath ctx.workspace r0 ≠ ctx.workDir := by
        have := (List.mem_filter.1 hr0fil).2
        simpa using this
      refine ⟨by rw [queryScoreDesc_none] at hr0q; exact mem_sortByScore.1 hr0q, hr0ne, ?_⟩
      intro x hx hxne
      have hxq : x ∈ queryScoreDesc ctx.store none none := by
        rw [queryScoreDesc_none]
        exact mem_sortByScore.2 hx
      have hxfil : x ∈ (queryScoreDesc ctx.store none none).filter
          (fun x => getPath ctx.workspace x != ctx.workDir) := by
        refine List.mem_filter.2 ⟨hxq, ?_⟩
        simpa using hxne
      rw [hfil] at hxfil
      rcases List.mem_cons.1 hxfil with rfl | hxrest
      · exact le_refl _
      · have hsorted : ScoreSorted (queryScoreDesc ctx.store none none) := by
          rw [queryScoreDesc_none]
          exact sorted_sortByScore ctx.store
        have hfilsorted : ScoreSorted ((queryScoreDesc ctx.store none none).filter
            (fun x => getPath ctx.workspace x != ctx.workDir)) :=
          hsorted.sublist (List.filter_sublist _)
        rw [hfil] at hfilsorted
        exact (List.pairwise_cons.1 hfilsorted).1 x hxrest
  · intro ctx remote search r hmem hin huniq
    rw [fuzzyOne]
    obtain ⟨r', h1, h2, h3⟩ := fuzzyScan_contain ctx.workDir ctx.workspace
      (queryScoreDesc ctx.store remote search) [] ⟨r, hmem, hin⟩
    by_cases he : r' = r
    · rw [he] at h1; exact h1
    · rw [huniq r' h2 he] at h3
      cases h3
  · intro ctx head opts h1 h2
    simp [oneFromHead, h1, h2]

/-- Witness for `fuzzy_resolution_spec` at concrete stores. -/
theorem fuzzy_resolution_spec_witness :
    (chooseOne ctxTop none none ⟨.fuzzy, false, false⟩ = fuzzyOne ctxTop none none) ∧
      (repoBar2 ∈ ctxTop.store ∧ getPath ctxTop.workspace repoBar2 ≠ ctxTop.workDir ∧
        ∀ x ∈ ctxTop.store, getPath ctxTop.workspace x ≠ ctxTop.workDir →
          x.score ≤ repoBar2.score) ∧
      fuzzyOne ctxInside none (some "bar") = .ok repoBar ∧
      oneFromHead ctxInside "bar" ⟨.fuzzy, false, false⟩ =
        fuzzyOne ctxInside none (some "bar") :=
  ⟨fuzzy_resolution_spec.1 ctxTop ⟨.fuzzy, false, false⟩ rfl,
    fuzzy_resolution_spec.2.1 ctxTop repoBar2 (by decide) (by decide),
    fuzzy_resolution_spec.2.2.1 ctxInside none (some "bar") repoBar
      (by decide) (by decide) (by decide),
    fuzzy_resolution_spec.2.2.2 ctxInside "bar" ⟨.fuzzy, false, false⟩
      (by decide) (by decide)⟩

/-- C9 (counterexample to "the exception applies only when no
disambiguating tokens were given"): with the head token "bar" (not a
configured remote, hence a name-filtered fuzzy query), resolution still
returns the lower-scored repository the working directory sits in, not the
top-scored name match. -/
theorem fuzzy_exception_with_tokens :
    oneFromHead ctxInside "bar" ⟨.fuzzy, false, false⟩ = .ok repoBar ∧
      ("bar" : String) ≠ "" ∧
      insideRepo ctxInside.workDir ctxInside.workspace repoBar = true ∧
      repoBar2 ∈ queryScoreDesc ctxInside.store none (some "bar") ∧
      repoBar.score < repoBar2.score ∧ repoBar ≠ repoBar2 := by
  exact ⟨by decide, by decide, by decide, by decide, by decide, by decide⟩

/-! ### URL and SSH resolution properties (C4) -/

theorem listStartsWith_append (p l : List Char) : listStartsWith (p ++ l) p = true := by
  induction p with
  | nil => cases l <;> rfl
  | cons c p' ih => simp [listStartsWith, ih]

theorem trimPrefixList_append (p l : List Char) : trimPrefixList p (p ++ l) = l := by
  unfold trimPrefixList
  rw [if_pos (listStartsWith_append p l)]
  exact List.drop_left p l

theorem trimSuffixList_append (suf l : List Char) : trimSuffixList suf (l ++ suf) = l := by
  unfold trimSuffixList
  rw [List.reverse_append, if_pos (listStartsWith_append suf.reverse l.reverse)]
  have hlen : (l ++ suf).length - suf.length = l.length := by
    simp
  rw [hlen, List.take_left l suf]

theorem replaceFirstChar_cons (oldC newC c : Char) (rest : List Char) :
    replaceFirstChar oldC newC (c :: rest) =
      if c = oldC then newC :: rest else c :: replaceFirstChar oldC newC rest := rfl

theorem replaceFirstChar_append (oldC newC : Char) :
    ∀ (l : List Char), oldC ∉ l →
      ∀ r, replaceFirstChar oldC newC (l ++ oldC :: r) = l ++ newC :: r := by
  intro l
  induction l with
  | nil =>
    intro _ r
    simp [replaceFirstChar_cons]
  | cons c l' ih =>
    intro hno r
    have hc : c ≠ oldC := fun e => hno (by simp [e])
    have hl' : oldC ∉ l' := fun e => hno (by simp [e])
    rw [List.cons_append, replaceFirstChar_cons, if_neg hc, ih hl' r]
    simp

theorem splitChar_cons_of (sep c : Char) (rest : List Char) (p : List Char)
    (ps : List (List Char)) (h : splitChar sep rest = p :: ps) :
    splitChar sep (c :: rest) =
      if c = sep then [] :: p :: ps else (c :: p) :: ps := by
  unfold splitChar
  rw [h]

theorem splitChar_ne_nil (sep : Char) : ∀ l, splitChar sep l ≠ [] := by
  intro l
  induction l with
  | nil => simp [splitChar]
  | cons c rest ih =>
    cases h : splitChar sep rest with
    | nil => exact absurd h ih
    | cons p ps =>
      rw [splitChar_cons_of sep c rest p ps h]
      split <;> simp

theorem splitChar_not_mem (sep : Char) :
    ∀ l p, p ∈ splitChar sep l → sep ∉ p := by
  intro l
  induction l with
  | nil =>
    intro p hp
    simp [splitChar] at hp
    simp [hp]
  | cons c rest ih =>
    intro p hp
    cases h : splitChar sep rest with
    | nil => exact absurd h (splitChar_ne_nil sep rest)
    | cons q qs =>
      rw [splitChar_cons_of sep c rest q qs h] at hp
      by_cases hc : c = sep
      · rw [if_pos hc] at hp
        rcases List.mem_cons.1 hp with rfl | hp'
        · simp
        · exact ih p (by rw [h]; exact hp')
      · rw [if_neg hc] at hp
        rcases List.mem_cons.1 hp with rfl | hp'
        · intro hmem
          rcases List.mem_cons.1 hmem with rfl | hmem'
          · exact hc rfl
          · exact ih q (by rw [h]; exact List.mem_cons_self q qs) hmem'
        · exact ih p (by rw [h]; simp [hp'])

theorem splitChar_single (sep : Char) :
    ∀ p, sep ∉ p → splitChar sep p = [p] := by
  intro p
  induction p with
  | nil => intro _; rfl
  | cons c p' ih =>
    intro hno
    have hc : c ≠ sep := fun e => hno (by simp [e])
    have hp' : sep ∉ p' := fun e => hno (by simp [e])
    rw [splitChar_cons_of sep c p' p' [] (ih hp'), if_neg hc]

theorem splitChar_sep_append (sep : Char) :
    ∀ p l, sep ∉ p → splitChar sep (p ++ sep :: l) = p :: splitChar sep l := by
  intro p
  induction p with
  | nil =>
    intro l _
    simp only [List.nil_append]
    cases h : splitChar sep l with
    | nil => exact absurd h (splitChar_ne_nil sep l)
    | cons q qs =>
      rw [splitChar_cons_of sep sep l q qs h, if_pos rfl, ← h]
  | cons c p' ih =>
    intro l hno
    have hc : c ≠ sep := fun e => hno (by simp [e])
    have hp' : sep ∉ p' := fun e => hno (by simp [e])
    simp only [List.cons_append]
    cases h2 : splitChar sep l with
    | nil => exact absurd h2 (splitChar_ne_nil sep l)
    | cons q qs =>
      have hrec := ih l hp'
      rw [h2] at hrec
      rw [splitChar_cons_of sep c (p' ++ sep :: l) p' (q :: qs) hrec, if_neg hc]

theorem splitChar_join (sep : Char) :
    ∀ parts, parts ≠ [] → (∀ p ∈ parts, sep ∉ p) →
      splitChar sep (joinChar sep parts) = parts := by
  intro parts
  induction parts with
  | nil => intro h _; exact absurd rfl h
  | cons p rest ih =>
    intro _ hfree
    cases rest with
    | nil =>
      show splitChar sep (joinChar sep [p]) = [p]
      rw [joinChar]
      exact splitChar_single sep p (hfree p (by simp))
    | cons q rest' =>
      show splitChar sep (p ++ sep :: joinChar sep (q :: rest')) = p :: q :: rest'
      rw [splitChar_sep_append sep p _ (hfree p (by simp))]
      rw [ih (by simp) (fun x hx => hfree x (by simp [hx]))]

theorem parseOwner_parts (ps : List String) (a : String)
    (hfree : ∀ p ∈ ps ++ [a], ('/' : Char) ∉ p.toList) :
    parseOwner (strJoin '/' (ps ++ [a])) = (strJoin '/' ps, a) := by
  have hsplit : splitChar '/' (String.toList (strJoin '/' (ps ++ [a]))) =
      (ps ++ [a]).map String.toList := by
    show splitChar '/' (joinChar '/' ((ps ++ [a]).map String.toList)) = _
    apply splitChar_join
    · simp
    · intro p hp
      obtain ⟨x, hx, rfl⟩ := List.mem_map.1 hp
      exact hfree x hx
  simp only [parseOwner]
  rw [hsplit, List.map_append]
  simp only [List.map_cons, List.map_nil]
  rw [List.dropLast_concat, List.getLast?_concat]
  rfl

theorem findTargetRemote_clone :
    ∀ (cfgs : List RemoteConfig) (host : String) (rc : RemoteConfig) (g : Bool),
      findTargetRemote cfgs host = some (rc, g) →
      rc.clone = host ∧ rc.clone ≠ "" ∧ g = (rc.clone != gitHubHost) := by
  intro cfgs
  induction cfgs with
  | nil => intro host rc g h; simp [findTargetRemote] at h
  | cons c rest ih =>
    intro host rc g h
    unfold findTargetRemote at h
    by_cases h1 : c.clone = ""
    · rw [if_pos h1] at h
      exact ih host rc g h
    · rw [if_neg h1] at h
      by_cases h2 : c.clone = host
      · rw [if_pos h2] at h
        simp only [Option.some.injEq, Prod.mk.injEq] at h
        obtain ⟨rfl, rfl⟩ := h
        exact ⟨h2, h1, rfl⟩
      · rw [if_neg h2] at h
        exact ih host rc g h

theorem collectParts_nil (g : Bool) (acc : List String) :
    collectParts g [] acc = acc := rfl

theorem collectParts_cons_gh (s : String) (rest acc : List String) :
    collectParts false (s :: rest) acc =
      if s = "" then collectParts false rest acc
      else if acc.length = 2 then acc
      else collectParts false rest (acc ++ [s]) := rfl

theorem collectParts_cons_gl (s : String) (rest acc : List String) :
    collectParts true (s :: rest) acc =
      if s = "" then collectParts true rest acc
      else if s = "-" then acc
      else collectParts true rest (acc ++ [s]) := rfl

theorem collectParts_full :
    ∀ (segs acc : List String), acc.length = 2 → collectParts false segs acc = acc := by
  intro segs
  induction segs with
  | nil => intro acc _; rfl
  | cons s rest ih =>
    intro acc h
    rw [collectParts_cons_gh]
    by_cases hs : s = ""
    · rw [if_pos hs]
      exact ih acc h
    · rw [if_neg hs, if_pos h]

theorem collectParts_github :
    ∀ (segs acc : List String), acc.length < 2 →
      collectParts false segs acc = (acc ++ segs.filter (fun s => s ≠ "")).take 2 := by
  intro segs
  induction segs with
  | nil =>
    intro acc h
    rw [collectParts_nil]
    simp only [List.filter_nil, List.append_nil]
    exact (List.take_of_length_le (by omega)).symm
  | cons s rest ih =>
    intro acc h
    rw [collectParts_cons_gh]
    by_cases hs : s = ""
    · rw [if_pos hs, ih acc h]
      simp [List.filter_cons, hs]
    · rw [if_neg hs, if_neg (by omega)]
      by_cases hlen : (acc ++ [s]).length < 2
      · rw [ih (acc ++ [s]) hlen]
        simp [List.filter_cons, hs, List.append_assoc]
      · have hlen2 : (acc ++ [s]).length = 2 := by
          simp only [List.length_append, List.length_cons, List.length_nil] at hlen ⊢
          omega
        rw [collectParts_full rest (acc ++ [s]) hlen2]
        have heq : acc ++ (s :: rest).filter (fun s => s ≠ "") =
            (acc ++ [s]) ++ rest.filter (fun s => s ≠ "") := by
          simp [List.filter_cons, hs]
        rw [heq, ← hlen2, List.take_left]

theorem collectParts_gitlab :
    ∀ (segs acc : List String),
      collectParts true segs acc =
        acc ++ (segs.filter (fun s => s ≠ "")).takeWhile (fun s => s ≠ "-") := by
  intro segs
  induction segs with
  | nil => intro acc; simp [collectParts_nil]
  | cons s rest ih =>
    intro acc
    rw [collectParts_cons_gl]
    by_cases hs : s = ""
    · rw [if_pos hs, ih acc]
      simp [List.filter_cons, hs]
    · rw [if_neg hs]
      by_cases hd : s = "-"
      · rw [if_pos hd]
        simp [List.filter_cons, List.takeWhile_cons, hs, hd]
      · rw [if_neg hd, ih (acc ++ [s])]
        simp [List.filter_cons, List.takeWhile_cons, hs, hd, List.append_assoc]

theorem strSplit_no_sep (sep : Char) (s : String) :
    ∀ x ∈ strSplit sep s, sep ∉ x.toList := by
  intro x hx
  obtain ⟨l, hl, rfl⟩ := List.mem_map.1 hx
  exact splitChar_not_mem sep s.toList l hl

theorem oneFromURLParsed_some (ctx : Ctx) (u : ParsedURL) (opts : OneOptions)
    (rc : RemoteConfig) (g : Bool)
    (hhost : u.host ≠ "") (hfind : findTargetRemote ctx.remoteConfigs u.host = some (rc, g)) :
    oneFromURLParsed ctx u opts =
      (if (collectParts g (strSplit '/' u.path) []).length < 2 then .error .urlNotRepo
       else
        oneFromID ctx rc.name
          (parseOwner (strJoin '/' (collectParts g (strSplit '/' u.path) []))).1
          (parseOwner (strJoin '/' (collectParts g (strSplit '/' u.path) []))).2 opts) := by
  unfold oneFromURLParsed
  rw [if_neg hhost, hfind]

theorem colonData : (":" : String).data = [':'] := by decide

theorem slashData : ("/" : String).data = ['/'] := by decide

theorem sshToURL_eq (host owner name : String) (hc : (':' : Char) ∉ host.toList) :
    sshToURL ("git@" ++ host ++ ":" ++ owner ++ "/" ++ name ++ ".git") =
      "https://" ++ host ++ "/" ++ owner ++ "/" ++ name := by
  have hdata : ("git@" ++ host ++ ":" ++ owner ++ "/" ++ name ++ ".git").toList =
      "git@".toList ++
        ((host.toList ++ ':' :: (owner.toList ++ '/' :: name.toList)) ++ ".git".toList) := by
    simp only [String.toList, String.data_append, colonData, slashData,
      List.append_assoc, List.cons_append, List.singleton_append, List.nil_append]
  apply String.ext
  simp only [sshToURL]
  rw [hdata, trimPrefixList_append, trimSuffixList_append,
    replaceFirstChar_append ':' '/' host.toList hc]
  simp only [String.toList, String.data_append, slashData,
    List.append_assoc, List.cons_append, List.singleton_append, List.nil_append]

/-- C4: URL/SSH resolution.  (a) For a URL whose host matches a GitHub-type
remote, owner and name are exactly the first two non-empty path segments.
(b) For a host matching any non-GitHub remote, non-empty segments are
accumulated until a literal `-` segment; the last is the name and the
preceding ones joined with `/` form the owner.  (c) An SSH endpoint
`git@host:owner/name.git` is rewritten to `https://host/owner/name` and
parsed by the same URL path.  (d) A host matching no configured remote, or
fewer than two resolved segments, is an error.  (e) The two concrete
spec examples resolve as claimed. -/
theorem url_resolution_spec :
    (∀ (ctx : Ctx) (u : ParsedURL) (opts : OneOptions) (rc : RemoteConfig)
       (a b : String) (rest : List String),
      findTargetRemote ctx.remoteConfigs u.host = some (rc, false) →
      (strSplit '/' u.path).filter (fun s => s ≠ "") = a :: b :: rest →
      oneFromURLParsed ctx u opts = oneFromID ctx rc.name a b opts) ∧
    (∀ (ctx : Ctx) (u : ParsedURL) (opts : OneOptions) (rc : RemoteConfig)
       (ps : List String) (a : String),
      findTargetRemote ctx.remoteConfigs u.host = some (rc, true) →
      ((strSplit '/' u.path).filter (fun s => s ≠ "")).takeWhile (fun s => s ≠ "-") =
        ps ++ [a] →
      ps ≠ [] →
      oneFromURLParsed ctx u opts = oneFromID ctx rc.name (strJoin '/' ps) a opts) ∧
    (∀ (host owner name : String), (':' : Char) ∉ host.toList →
      sshToURL ("git@" ++ host ++ ":" ++ owner ++ "/" ++ name ++ ".git") =
        "https://" ++ host ++ "/" ++ owner ++ "/" ++ name) ∧
    (∀ (ctx : Ctx) (ssh : String) (opts : OneOptions),
      oneFromSsh ctx ssh opts = oneFromURL ctx (sshToURL ssh) opts) ∧
    (∀ (ctx : Ctx) (u : ParsedURL) (opts : OneOptions),
      u.host ≠ "" → findTargetRemote ctx.remoteConfigs u.host = none →
      oneFromURLParsed ctx u opts = .error .noRemoteWithHost) ∧
    (∀ (ctx : Ctx) (u : ParsedURL) (opts : OneOptions) (rc : RemoteConfig) (g : Bool),
      findTargetRemote ctx.remoteConfigs u.host = some (rc, g) →
      (collectParts g (strSplit '/' u.path) []).length < 2 →
      oneFromURLParsed ctx u opts = .error .urlNotRepo) ∧
    (oneFromURL ctxHosts "https://github.com/acme/widget/tree/main" ⟨.fuzzy, false, false⟩ =
      .ok { id := "github:acme/widget", remote := "github", owner := "acme",
            name := "widget", path := none, visitTime := 0, score := 0,
            newCreated := true }) ∧
    (oneFromURL ctxHosts "https://gitlab.example.com/group/subgroup/project/-/tree/main"
        ⟨.fuzzy, false, false⟩ =
      .ok { id := "gitlab:group/subgroup/project", remote := "gitlab",
            owner := "group/subgroup", name := "project", path := none,
            visitTime := 0, score := 0, newCreated := true }) := by
  have hostne : ∀ (ctx : Ctx) (u : ParsedURL) (rc : RemoteConfig) (g : Bool),
      findTargetRemote ctx.remoteConfigs u.host = some (rc, g) → u.host ≠ "" := by
    intro ctx u rc g hfind
    obtain ⟨h1, h2, _⟩ := findTargetRemote_clone ctx.remoteConfigs u.host rc g hfind
    rw [← h1]
    exact h2
  refine ⟨?_, ?_, sshToURL_eq, fun _ _ _ => rfl, ?_, ?_, by decide, by decide⟩
  · intro ctx u opts rc a b rest hfind hsegs
    have hhost := hostne ctx u rc false hfind
    have hparts : collectParts false (strSplit '/' u.path) [] = [a, b] := by
      rw [collectParts_github (strSplit '/' u.path) [] (by simp), List.nil_append, hsegs]
      rfl
    rw [oneFromURLParsed_some ctx u opts rc false hhost hfind, hparts,
      if_neg (by simp)]
    have hfree : ∀ p ∈ [a] ++ [b], ('/' : Char) ∉ p.toList := by
      intro p hp
      have hmem : p ∈ (strSplit '/' u.path).filter (fun s => s ≠ "") := by
        rw [hsegs]
        rcases List.mem_append.1 hp with h | h <;> simp at h <;> simp [h]
      exact strSplit_no_sep '/' u.path p (List.mem_of_mem_filter hmem)
    have hpo : parseOwner (strJoin '/' ([a] ++ [b])) = (a, b) :=
      (parseOwner_parts [a] b hfree).trans rfl
    rw [show ([a, b] : List String) = [a] ++ [b] from rfl, hpo]
  · intro ctx u opts rc ps a hfind hsegs hps
    have hhost := hostne ctx u rc true hfind
    have hparts : collectParts true (strSplit '/' u.path) [] = ps ++ [a] := by
      rw [collectParts_gitlab (strSplit '/' u.path) [], List.nil_append, hsegs]
    have hlen : ¬(collectParts true (strSplit '/' u.path) []).length < 2 := by
      rw [hparts]
      cases ps with
      | nil => exact absurd rfl hps
      | cons x xs => simp
    rw [oneFromURLParsed_some ctx u opts rc true hhost hfind, if_neg hlen, hparts]
    have hfree : ∀ p ∈ ps ++ [a], ('/' : Char) ∉ p.toList := by
      intro p hp
      have hmem : p ∈ ((strSplit '/' u.path).filter (fun s => s ≠ "")).takeWhile
          (fun s => s ≠ "-") := by
        rw [hsegs]; exact hp
      exact strSplit_no_sep '/' u.path p
        (List.mem_of_mem_filter ((List.takeWhile_sublist _).mem hmem))
    rw [parseOwner_parts ps a hfree]
  · intro ctx u opts hhost hfind
    unfold oneFromURLParsed
    rw [if_neg hhost, hfind]
  · intro ctx u opts rc g hfind hlen
    rw [oneFromURLParsed_some ctx u opts rc g (hostne ctx u rc g hfind) hfind,
      if_pos hlen]

/-- Witness for `url_resolution_spec` at concrete URLs and SSH
endpoints. -/
theorem url_resolution_spec_witness :
    oneFromURLParsed ctxHosts ⟨"github.com", "/acme/widget/tree/main"⟩ ⟨.fuzzy, false, false⟩ =
        oneFromID ctxHosts "github" "acme" "widget" ⟨.fuzzy, false, false⟩ ∧
      oneFromURLParsed ctxHosts ⟨"gitlab.example.com", "/group/subgroup/project/-/tree/main"⟩
          ⟨.fuzzy, false, false⟩ =
        oneFromID ctxHosts "gitlab" (strJoin '/' ["group", "subgroup"]) "project"
          ⟨.fuzzy, false, false⟩ ∧
      sshToURL ("git@" ++ "github.com" ++ ":" ++ "acme" ++ "/" ++ "widget" ++ ".git") =
        "https://" ++ "github.com" ++ "/" ++ "acme" ++ "/" ++ "widget" ∧
      oneFromURLParsed ctxHosts ⟨"bitbucket.org", "/x/y"⟩ ⟨.fuzzy, false, false⟩ =
        .error .noRemoteWithHost ∧
      oneFromURLParsed ctxHosts ⟨"github.com", "/acme"⟩ ⟨.fuzzy, false, false⟩ =
        .error .urlNotRepo :=
  ⟨url_resolution_spec.1 ctxHosts ⟨"github.com", "/acme/widget/tree/main"⟩
      ⟨.fuzzy, false, false⟩ ⟨"github", "github.com"⟩ "acme" "widget" ["tree", "main"]
      (by decide) (by decide),
    url_resolution_spec.2.1 ctxHosts
      ⟨"gitlab.example.com", "/group/subgroup/project/-/tree/main"⟩
      ⟨.fuzzy, false, false⟩ ⟨"gitlab", "gitlab.example.com"⟩ ["group", "subgroup"] "project"
      (by decide) (by decide) (by decide),
    url_resolution_spec.2.2.1 "github.com" "acme" "widget" (by decide),
    url_resolution_spec.2.2.2.2.1 ctxHosts ⟨"bitbucket.org", "/x/y"⟩ ⟨.fuzzy, false, false⟩
      (by decide) (by decide),
    url_resolution_spec.2.2.2.2.2.1 ctxHosts ⟨"github.com", "/acme"⟩ ⟨.fuzzy, false, false⟩
      ⟨"github", "github.com"⟩ false (by decide) (by decide)⟩

/-! ## Batch executor (pkg/batch)

The worker pool delivers, over one channel, a "started" report before each
task's `Run` and a "done" report after it; the aggregator (`tracker.wait`)
is a sequential fold over that report stream.  Concurrency is modelled by
quantifying over every report interleaving the workers can produce: per
task, started-then-done with the task's submitted index, value and error;
across tasks, arbitrary order. -/

/-- `batch.doneTask`. -/
structure DoneTask (R : Type) where
  index : Nat
  result : R
  err : Option String
deriving DecidableEq

/-- `batch.reportTask`: one message of the report channel (Go uses a
two-pointer struct; exactly one of the two shapes is sent at a time). -/
inductive Report (R : Type) where
  | running (index : Nat) (name : String)
  | done (d : DoneTask R)
deriving DecidableEq

/-- The mutable state of `batch.tracker` (rendering-only fields omitted). -/
structure Tracker (R : Type) where
  runnings : List (Nat × String)
  dones : List (DoneTask R)
  okCount : Nat
  failCount : Nat
  failMessages : List (String × String)
deriving DecidableEq

def initTracker (R : Type) : Tracker R := ⟨[], [], 0, 0, []⟩

/-- `tracker.traceRunning`: record the started task. -/
def traceRunning {R : Type} (t : Tracker R) (index : Nat) (name : String) : Tracker R :=
  { t with runnings := t.runnings ++ [(index, name)] }

/-- The search-and-remove of `tracker.traceDone` over the running list
(`slices.Delete` at the first matching index). -/
def findRemove (i : Nat) : List (Nat × String) → Option (String × List (Nat × String))
  | [] => none
  | (j, n) :: rest =>
    if j = i then some (n, rest)
    else
      match findRemove i rest with
      | none => none
      | some (n', rest') => some (n', (j, n) :: rest')

/-- `tracker.traceDone`: drop a done report whose started report was never
seen; otherwise remove the running entry, count ok/fail, retain the failing
task's name and message, and record the done task. -/
def traceDone {R : Type} (t : Tracker R) (d : DoneTask R) : Tracker R :=
  match findRemove d.index t.runnings with
  | none => t
  | some (name, rs) =>
    match d.err with
    | some msg =>
      { t with runnings := rs, failCount := t.failCount + 1,
               failMessages := t.failMessages ++ [(name, msg)],
               dones := t.dones ++ [d] }
    | none =>
      { t with runnings := rs, okCount := t.okCount + 1, dones := t.dones ++ [d] }

def trackerStep {R : Type} (t : Tracker R) : Report R → Tracker R
  | .running i n => traceRunning t i n
  | .done d => traceDone t d

/-- The receive loop of `tracker.wait`: keep consuming reports while fewer
than `total` tasks are done (a closed channel, i.e. an exhausted list,
also ends the loop). -/
def waitLoop {R : Type} (total : Nat) (t : Tracker R) : List (Report R) → Tracker R
  | [] => t
  | e :: rest =>
    if t.dones.length < total then waitLoop total (trackerStep t e) rest
    else t

/-- The result assembly of `tracker.wait`: a `total`-sized array of zero
values (`d₀`), each done task written at its submission index. -/
def buildResults {R : Type} (total : Nat) (d₀ : R) (dones : List (DoneTask R)) : List R :=
  dones.foldl (fun acc d => acc.set d.index d.result) (List.replicate total d₀)

/-- `tracker.wait`: consume the report stream, then fail with the retained
failure messages when any task failed, else return the ordered results. -/
def wait {R : Type} (total : Nat) (d₀ : R) (events : List (Report R)) :
    Except (List (String × String)) (List R) :=
  let t := waitLoop total (initTracker R) events
  if t.failMessages.isEmpty then .ok (buildResults total d₀ t.dones)
  else .error t.failMessages

/-- The trace validity checker: walking the report stream with the sets of
started-but-not-done (`pending`) and done (`dset`) indices, each started
report carries a fresh index below `N` with the task's name, each done
report carries a pending index with the value and error task `index`
produced, and at the end every started task has completed and all `N`
tasks are done. -/
def checkTrace {R : Type} [DecidableEq R] (N : Nat) (names : List String) (values : List R)
    (errs : List (Option String)) : List (Report R) → List Nat → List Nat → Bool
  | [], pending, dset => pending.isEmpty && decide (dset.length = N)
  | .running i n :: rest, pending, dset =>
    decide (i < N) && decide (i ∉ pending) && decide (i ∉ dset) &&
      decide (names.get? i = some n) &&
      checkTrace N names values errs rest (i :: pending) dset
  | .done d :: rest, pending, dset =>
    decide (d.index ∈ pending) && decide (values.get? d.index = some d.result) &&
      decide (errs.get? d.index = some d.err) &&
      checkTrace N names values errs rest (pending.erase d.index) (d.index :: dset)

/-- The aggregator invariant tying the tracker state to the checker
state. -/
structure TrackInv {R : Type} (N : Nat) (names : List String) (values : List R)
    (errs : List (Option String)) (t : Tracker R) (pending dset : List Nat) : Prop where
  run_nodup : (t.runnings.map Prod.fst).Nodup
  run_mem : ∀ j, j ∈ t.runnings.map Prod.fst ↔ j ∈ pending
  run_names : ∀ p ∈ t.runnings, names.get? p.1 = some p.2
  pend_nodup : pending.Nodup
  pend_lt : ∀ j ∈ pending, j < N
  dset_nodup : dset.Nodup
  dset_lt : ∀ j ∈ dset, j < N
  disj : ∀ j ∈ pending, j ∉ dset
  dones_idx : ∀ d ∈ t.dones,
    d.index ∈ dset ∧ values.get? d.index = some d.result ∧ errs.get? d.index = some d.err
  dones_nodup : (t.dones.map DoneTask.index).Nodup
  dones_len : t.dones.length = dset.length
  fails : ∀ fm ∈ t.failMessages,
    ∃ j ∈ dset, names.get? j = some fm.1 ∧ errs.get? j = some (some fm.2)
  fails_complete : ∀ j ∈ dset, ∀ m, errs.get? j = some (some m) →
    ∃ nm, names.get? j = some nm ∧ (nm, m) ∈ t.failMessages

theorem findRemove_spec :
    ∀ (l : List (Nat × String)) (i : Nat), i ∈ l.map Prod.fst →
      ∃ n l', findRemove i l = some (n, l') ∧ (i, n) ∈ l ∧ (∀ p ∈ l', p ∈ l) ∧
        l'.map Prod.fst = (l.map Prod.fst).erase i := by
  intro l
  induction l with
  | nil => intro i hi; simp at hi
  | cons p rest ih =>
    intro i hi
    obtain ⟨j, n⟩ := p
    by_cases hj : j = i
    · subst hj
      refine ⟨n, rest, ?_, by simp, fun q hq => by simp [hq], ?_⟩
      · simp [findRemove]
      · simp [List.erase_cons]
    · have hi' : i ∈ rest.map Prod.fst := by
        simp only [List.map_cons, List.mem_cons] at hi
        rcases hi with h | h
        · exact absurd h.symm hj
        · exact h
      obtain ⟨n', l', h1, h2, h3, h4⟩ := ih i hi'
      refine ⟨n', (j, n) :: l', ?_, by simp [h2], ?_, ?_⟩
      · simp only [findRemove, if_neg hj, h1]
      · intro q hq
        rcases List.mem_cons.1 hq with rfl | hq'
        · simp
        · simp [h3 q hq']
      · simp only [List.map_cons, h4, List.erase_cons]
        rw [if_neg (by simpa using hj)]

theorem nodup_bounded_full {l : List Nat} {N : Nat} (hn : l.Nodup)
    (hlt : ∀ x ∈ l, x < N) (hlen : N ≤ l.length) : ∀ i, i < N → i ∈ l := by
  have hsub : l.toFinset ⊆ Finset.range N := by
    intro x hx
    exact Finset.mem_range.2 (hlt x (List.mem_toFinset.1 hx))
  have hcard : (Finset.range N).card ≤ l.toFinset.card := by
    rw [Finset.card_range, List.toFinset_card_of_nodup hn]
    exact hlen
  have heq := Finset.eq_of_subset_of_card_le hsub hcard
  intro i hi
  exact List.mem_toFinset.1 (heq ▸ Finset.mem_range.2 hi)

theorem trackInv_running {R : Type} {N : Nat} {names : List String} {values : List R}
    {errs : List (Option String)} {t : Tracker R} {pending dset : List Nat}
    {i : Nat} {n : String}
    (inv : TrackInv N names values errs t pending dset)
    (h1 : i < N) (h2 : i ∉ pending) (h3 : i ∉ dset) (h4 : names.get? i = some n) :
    TrackInv N names values errs (traceRunning t i n) (i :: pending) dset := by
  have hfstmap : (traceRunning t i n).runnings.map Prod.fst =
      t.runnings.map Prod.fst ++ [i] := by
    simp [traceRunning]
  have hnotin : i ∉ t.runnings.map Prod.fst := fun hmem => h2 ((inv.run_mem i).1 hmem)
  constructor
  · rw [hfstmap, List.nodup_append]
    refine ⟨inv.run_nodup, List.nodup_singleton i, ?_⟩
    intro a ha hb
    simp only [List.mem_singleton] at hb
    subst hb
    exact hnotin ha
  · intro j
    rw [hfstmap]
    simp only [List.mem_append, List.mem_singleton, List.mem_cons, inv.run_mem j]
    tauto
  · intro p hp
    rcases List.mem_append.1 hp with hp' | hp'
    · exact inv.run_names p hp'
    · simp at hp'
      rw [hp']
      exact h4
  · exact List.nodup_cons.2 ⟨h2, inv.pend_nodup⟩
  · intro j hj
    rcases List.mem_cons.1 hj with rfl | hj'
    · exact h1
    · exact inv.pend_lt j hj'
  · exact inv.dset_nodup
  · exact inv.dset_lt
  · intro j hj
    rcases List.mem_cons.1 hj with rfl | hj'
    · exact h3
    · exact inv.disj j hj'
  · exact inv.dones_idx
  · exact inv.dones_nodup
  · exact inv.dones_len
  · exact inv.fails
  · exact inv.fails_complete

theorem trackInv_done {R : Type} {N : Nat} {names : List String} {values : List R}
    {errs : List (Option String)} {t : Tracker R} {pending dset : List Nat}
    {d : DoneTask R}
    (inv : TrackInv N names values errs t pending dset)
    (h1 : d.index ∈ pending)
    (h2 : values.get? d.index = some d.result) (h3 : errs.get? d.index = some d.err) :
    TrackInv N names values errs (traceDone t d) (pending.erase d.index)
      (d.index :: dset) := by
  have hidx : d.index ∈ t.runnings.map Prod.fst := (inv.run_mem d.index).2 h1
  obtain ⟨nm, l', hfr, hmem, hsub, hmap⟩ := findRemove_spec t.runnings d.index hidx
  have hname : names.get? d.index = some nm := inv.run_names (d.index, nm) hmem
  have hidxN : d.index < N := inv.pend_lt _ h1
  have hidxdset : d.index ∉ dset := inv.disj _ h1
  have hidxdones : d.index ∉ t.dones.map DoneTask.index := by
    intro hc
    obtain ⟨d', hd', he⟩ := List.mem_map.1 hc
    exact hidxdset (he ▸ (inv.dones_idx d' hd').1)
  have hrun_nodup : (l'.map Prod.fst).Nodup := by
    rw [hmap]; exact inv.run_nodup.erase _
  have hrun_mem : ∀ j, j ∈ l'.map Prod.fst ↔ j ∈ pending.erase d.index := by
    intro j
    rw [hmap, inv.run_nodup.mem_erase_iff, inv.pend_nodup.mem_erase_iff, inv.run_mem j]
  have hrun_names : ∀ p ∈ l', names.get? p.1 = some p.2 :=
    fun p hp => inv.run_names p (hsub p hp)
  have hpend_nodup : (pending.erase d.index).Nodup := inv.pend_nodup.erase _
  have hpend_lt : ∀ j ∈ pending.erase d.index, j < N :=
    fun j hj => inv.pend_lt j (List.mem_of_mem_erase hj)
  have hdset_nodup : (d.index :: dset).Nodup := List.nodup_cons.2 ⟨hidxdset, inv.dset_nodup⟩
  have hdset_lt : ∀ j ∈ d.index :: dset, j < N := by
    intro j hj
    rcases List.mem_cons.1 hj with rfl | hj'
    · exact hidxN
    · exact inv.dset_lt j hj'
  have hdisj : ∀ j ∈ pending.erase d.index, j ∉ d.index :: dset := by
    intro j hj hc
    have hj' := inv.pend_nodup.mem_erase_iff.1 hj
    rcases List.mem_cons.1 hc with rfl | hc'
    · exact hj'.1 rfl
    · exact inv.disj j hj'.2 hc'
  have hdones_idx : ∀ d' ∈ t.dones ++ [d],
      d'.index ∈ d.index :: dset ∧ values.get? d'.index = some d'.result ∧
        errs.get? d'.index = some d'.err := by
    intro d' hd'
    rcases List.mem_append.1 hd' with hd'' | hd''
    · obtain ⟨ha, hb, hc⟩ := inv.dones_idx d' hd''
      exact ⟨by simp [ha], hb, hc⟩
    · simp at hd''
      subst hd''
      exact ⟨by simp, h2, h3⟩
  have hdones_nodup : ((t.dones ++ [d]).map DoneTask.index).Nodup := by
    rw [List.map_append]
    rw [List.nodup_append]
    refine ⟨inv.dones_nodup, by simp, ?_⟩
    intro a ha hb
    simp at hb
    exact hidxdones (hb ▸ ha)
  have hdones_len : (t.dones ++ [d]).length = (d.index :: dset).length := by
    simp [inv.dones_len]
  unfold traceDone
  rw [hfr]
  cases herr : d.err with
  | none =>
    constructor
    · exact hrun_nodup
    · exact hrun_mem
    · exact hrun_names
    · exact hpend_nodup
    · exact hpend_lt
    · exact hdset_nodup
    · exact hdset_lt
    · exact hdisj
    · exact hdones_idx
    · exact hdones_nodup
    · exact hdones_len
    · intro fm hfm
      obtain ⟨j, hj, hn1, hn2⟩ := inv.fails fm hfm
      exact ⟨j, by simp [hj], hn1, hn2⟩
    · intro j hj m hm
      rcases List.mem_cons.1 hj with rfl | hj'
      · rw [h3, herr] at hm
        simp at hm
      · exact inv.fails_complete j hj' m hm
  | some msg =>
    constructor
    · exact hrun_nodup
    · exact hrun_mem
    · exact hrun_names
    · exact hpend_nodup
    · exact hpend_lt
    · exact hdset_nodup
    · exact hdset_lt
    · exact hdisj
    · exact hdones_idx
    · exact hdones_nodup
    · exact hdones_len
    · intro fm hfm
      rcases List.mem_append.1 hfm with hfm' | hfm'
      · obtain ⟨j, hj, hn1, hn2⟩ := inv.fails fm hfm'
        exact ⟨j, by simp [hj], hn1, hn2⟩
      · simp at hfm'
        subst hfm'
        exact ⟨d.index, by simp, hname, by rw [h3, herr]⟩
    · intro j hj m hm
      rcases List.mem_cons.1 hj with rfl | hj'
      · rw [h3, herr] at hm
        simp at hm
        subst hm
        exact ⟨nm, hname, by simp⟩
      · obtain ⟨nm', hnm1, hnm2⟩ := inv.fails_complete j hj' m hm
        exact ⟨nm', hnm1, by simp [hnm2]⟩

theorem waitLoop_cons {R : Type} (total : Nat) (t : Tracker R) (e : Report R)
    (rest : List (Report R)) :
    waitLoop total t (e :: rest) =
      if t.dones.length < total then waitLoop total (trackerStep t e) rest else t := rfl

theorem trackInv_init {R : Type} (N : Nat) (names : List String) (values : List R)
    (errs : List (Option String)) :
    TrackInv N names values errs (initTracker R) [] [] := by
  constructor <;> simp [initTracker]

theorem waitLoop_spec {R : Type} [DecidableEq R] (N : Nat) (names : List String)
    (values : List R) (errs : List (Option String)) :
    ∀ (events : List (Report R)) (pending dset : List Nat) (t : Tracker R),
      checkTrace N names values errs events pending dset = true →
      TrackInv N names values errs t pending dset →
      ∃ dsetF, TrackInv N names values errs (waitLoop N t events) [] dsetF ∧
        dsetF.length = N := by
  intro events
  induction events with
  | nil =>
    intro pending dset t hchk hinv
    simp only [checkTrace, Bool.and_eq_true, decide_eq_true_eq, List.isEmpty_iff] at hchk
    obtain ⟨hpe, hlen⟩ := hchk
    subst hpe
    exact ⟨dset, hinv, hlen⟩
  | cons e rest ih =>
    intro pending dset t hchk hinv
    rw [waitLoop_cons]
    cases e with
    | running i n =>
      simp only [checkTrace, Bool.and_eq_true, decide_eq_true_eq] at hchk
      obtain ⟨⟨⟨⟨hiN, hip⟩, hid⟩, hin⟩, hrest⟩ := hchk
      have hguard : t.dones.length < N := by
        rw [hinv.dones_len]
        by_contra hge
        push_neg at hge
        exact hid (nodup_bounded_full hinv.dset_nodup hinv.dset_lt hge i hiN)
      rw [if_pos hguard]
      exact ih _ _ _ hrest (trackInv_running hinv hiN hip hid hin)
    | done d =>
      simp only [checkTrace, Bool.and_eq_true, decide_eq_true_eq] at hchk
      obtain ⟨⟨⟨hdp, hdv⟩, hde⟩, hrest⟩ := hchk
      have hguard : t.dones.length < N := by
        rw [hinv.dones_len]
        by_contra hge
        push_neg at hge
        exact hinv.disj d.index hdp
          (nodup_bounded_full hinv.dset_nodup hinv.dset_lt hge d.index
            (hinv.pend_lt _ hdp))
      rw [if_pos hguard]
      exact ih _ _ _ hrest (trackInv_done hinv hdp hdv hde)

theorem buildFold_get {R : Type} :
    ∀ (dones : List (DoneTask R)) (acc : List R),
      (∀ d ∈ dones, d.index < acc.length) → (dones.map DoneTask.index).Nodup →
      ∀ i, (dones.foldl (fun a d => a.set d.index d.result) acc).get? i =
        match dones.find? (fun d => d.index = i) with
        | some d => some d.result
        | none => acc.get? i := by
  intro dones
  induction dones with
  | nil => intro acc _ _ i; simp [List.find?]
  | cons h t iht =>
    intro acc hlt hnodup i
    have hlen' : ∀ d ∈ t, d.index < (acc.set h.index h.result).length := by
      intro d hd
      rw [List.length_set]
      exact hlt d (by simp [hd])
    have hnodup' : (t.map DoneTask.index).Nodup := (List.nodup_cons.1 hnodup).2
    have hnotmem : h.index ∉ t.map DoneTask.index := (List.nodup_cons.1 hnodup).1
    simp only [List.foldl_cons]
    rw [iht (acc.set h.index h.result) hlen' hnodup' i]
    by_cases hi : h.index = i
    · subst hi
      have hfind : t.find? (fun d => d.index = h.index) = none := by
        rw [List.find?_eq_none]
        intro d hd
        simp only [decide_eq_true_eq]
        intro he
        exact hnotmem (List.mem_map.2 ⟨d, hd, he⟩)
      rw [hfind]
      have hhead : List.find? (fun d => d.index = h.index) (h :: t) = some h := by
        rw [List.find?_cons]
        simp
      rw [hhead]
      rw [List.get?_set_eq]
      simp [hlt h (by simp)]
    · have hhead : List.find? (fun d => d.index = i) (h :: t) =
          List.find? (fun d => d.index = i) t := by
        rw [List.find?_cons]
        simp [hi]
      rw [hhead]
      cases hf : List.find? (fun d => d.index = i) t with
      | some d => rfl
      | none => rw [List.get?_set_ne _ _ hi]

theorem buildResults_eq {R : Type} (N : Nat) (d₀ : R) (values : List R)
    (dones : List (DoneTask R))
    (hvlen : values.length = N)
    (hnodup : (dones.map DoneTask.index).Nodup)
    (hlt : ∀ d ∈ dones, d.index < N)
    (hval : ∀ d ∈ dones, values.get? d.index = some d.result)
    (hfull : ∀ i, i < N → i ∈ dones.map DoneTask.index) :
    buildResults N d₀ dones = values := by
  apply List.ext
  intro i
  unfold buildResults
  rw [buildFold_get dones (List.replicate N d₀)
    (by intro d hd; rw [List.length_replicate]; exact hlt d hd) hnodup i]
  by_cases hi : i < N
  · obtain ⟨d, hd, he⟩ := List.mem_map.1 (hfull i hi)
    have hsome : ∃ d', List.find? (fun d => d.index = i) dones = some d' := by
      have : (List.find? (fun d => d.index = i) dones).isSome := by
        rw [List.find?_isSome]
        exact ⟨d, hd, by simp [he]⟩
      exact Option.isSome_iff_exists.1 this
    obtain ⟨d', hd'⟩ := hsome
    rw [hd']
    have hpd' : d'.index = i := by
      have := List.find?_some hd'
      simpa using this
    have hd'mem : d' ∈ dones := List.mem_of_find?_eq_some hd'
    rw [← hpd', hval d' hd'mem]
  · have hnone : List.find? (fun d => d.index = i) dones = none := by
      rw [List.find?_eq_none]
      intro d hd
      simp only [decide_eq_true_eq]
      intro he
      exact hi (he ▸ hlt d hd)
    rw [hnone]
    rw [List.get?_eq_none.2 (by rw [List.length_replicate]; omega),
      List.get?_eq_none.2 (by omega)]

/-- C7: for every set of `N` submitted tasks (names, produced values) and
every report interleaving in which each task's done report (carrying its
submission index and value) arrives exactly once after its started report,
a run with no task error produces exactly the submitted value list:
`result[i]` is task `i`'s value, independent of completion order. -/
theorem batch_order_spec {R : Type} [DecidableEq R] (N : Nat) (names : List String)
    (values : List R) (d₀ : R) (events : List (Report R))
    (hvlen : values.length = N)
    (hvalid : checkTrace N names values (List.replicate N none) events [] [] = true) :
    wait N d₀ events = .ok values := by
  obtain ⟨dsetF, hinv, hlenF⟩ := waitLoop_spec N names values (List.replicate N none)
    events [] [] (initTracker R) hvalid (trackInv_init N names values _)
  have hfm : (waitLoop N (initTracker R) events).failMessages = [] := by
    cases hfm : (waitLoop N (initTracker R) events).failMessages with
    | nil => rfl
    | cons fm rest =>
      obtain ⟨j, hj, _, hj2⟩ := hinv.fails fm (by rw [hfm]; simp)
      rw [List.get?_eq_getElem?, List.getElem?_replicate] at hj2
      split at hj2 <;> simp at hj2
  simp only [wait]
  rw [hfm]
  simp only [List.isEmpty_nil, if_true, ite_true]
  congr 1
  apply buildResults_eq N d₀ values _ hvlen hinv.dones_nodup
    (fun d hd => hinv.dset_lt _ (hinv.dones_idx d hd).1)
    (fun d hd => (hinv.dones_idx d hd).2.1) ?_
  · intro i hi
    apply nodup_bounded_full hinv.dones_nodup
    · intro x hx
      obtain ⟨d, hd, he⟩ := List.mem_map.1 hx
      exact he ▸ hinv.dset_lt _ (hinv.dones_idx d hd).1
    · rw [List.length_map, hinv.dones_len, hlenF]
    · exact hi

/-- Witness for `batch_order_spec`: two tasks completing out of submission
order still yield `[10, 20]`. -/
theorem batch_order_spec_witness :
    wait 2 0 [Report.running 0 "a", Report.running 1 "b",
      Report.done ⟨1, 20, none⟩, Report.done ⟨0, 10, none⟩] = .ok [10, 20] :=
  batch_order_spec 2 ["a", "b"] [10, 20] 0
    [Report.running 0 "a", Report.running 1 "b",
      Report.done ⟨1, 20, none⟩, Report.done ⟨0, 10, none⟩]
    (by decide) (by decide)

/-- C8: over every valid report interleaving, if at least one task's run
returned an error then the batch returns the failure side with every
failing task's name and message retained; if no task failed it returns the
ok side with a result list of length `N`. -/
theorem batch_error_spec {R : Type} [DecidableEq R] (N : Nat) (names : List String)
    (values : List R) (errs : List (Option String)) (d₀ : R) (events : List (Report R))
    (herrlen : errs.length = N)
    (hvalid : checkTrace N names values errs events [] [] = true) :
    ((∃ i m, errs.get? i = some (some m)) →
      ∃ msgs, wait N d₀ events = .error msgs ∧
        ∀ i m, errs.get? i = some (some m) →
          ∃ nm, names.get? i = some nm ∧ (nm, m) ∈ msgs) ∧
    ((∀ i, i < N → errs.get? i = some none) →
      ∃ res, wait N d₀ events = .ok res ∧ res.length = N) := by
  obtain ⟨dsetF, hinv, hlenF⟩ := waitLoop_spec N names values errs
    events [] [] (initTracker R) hvalid (trackInv_init N names values errs)
  have hdset_full : ∀ i, i < N → i ∈ dsetF :=
    nodup_bounded_full hinv.dset_nodup hinv.dset_lt (by omega)
  constructor
  · intro ⟨i, m, him⟩
    have hiN : i < N := by
      by_contra hge
      push_neg at hge
      rw [List.get?_eq_none.2 (by omega)] at him
      cases him
    obtain ⟨nm, hnm1, hnm2⟩ := hinv.fails_complete i (hdset_full i hiN) m him
    refine ⟨(waitLoop N (initTracker R) events).failMessages, ?_, ?_⟩
    · simp only [wait]
      rw [if_neg (fun hc => by
        rw [List.isEmpty_iff] at hc
        rw [hc] at hnm2
        simp at hnm2)]
    · intro i' m' him'
      have hiN' : i' < N := by
        by_contra hge
        push_neg at hge
        rw [List.get?_eq_none.2 (by omega)] at him'
        cases him'
      exact hinv.fails_complete i' (hdset_full i' hiN') m' him'
  · intro hnone
    have hfm : (waitLoop N (initTracker R) events).failMessages = [] := by
      cases hfm : (waitLoop N (initTracker R) events).failMessages with
      | nil => rfl
      | cons fm rest =>
        obtain ⟨j, hj, _, hj2⟩ := hinv.fails fm (by rw [hfm]; simp)
        rw [hnone j (hinv.dset_lt j hj)] at hj2
        cases hj2
    refine ⟨buildResults N d₀ (waitLoop N (initTracker R) events).dones, ?_, ?_⟩
    · simp only [wait]
      rw [hfm]
      simp
    · unfold buildResults
      have : ∀ (ds : List (DoneTask R)) (acc : List R),
          (ds.foldl (fun a d => a.set d.index d.result) acc).length = acc.length := by
        intro ds
        induction ds with
        | nil => intro acc; rfl
        | cons h t ih => intro acc; rw [List.foldl_cons, ih, List.length_set]
      rw [this, List.length_replicate]

/-- Witness for `batch_error_spec`: one failing task of two. -/
theorem batch_error_spec_witness :
    (∃ msgs,
      wait 2 0 [Report.running 0 "a", Report.done ⟨0, 10, none⟩,
        Report.running 1 "b", Report.done ⟨1, 0, some "boom"⟩] = .error msgs ∧
      ∀ i m, ([none, some "boom"] : List (Option String)).get? i = some (some m) →
        ∃ nm, (["a", "b"] : List String).get? i = some nm ∧ (nm, m) ∈ msgs) ∧
    (∃ res,
      wait 2 0 [Report.running 0 "a", Report.done ⟨0, 10, none⟩,
        Report.running 1 "b", Report.done ⟨1, 20, none⟩] = .ok res ∧ res.length = 2) :=
  ⟨(batch_error_spec 2 ["a", "b"] [10, 0] [none, some "boom"] 0
      [Report.running 0 "a", Report.done ⟨0, 10, none⟩,
        Report.running 1 "b", Report.done ⟨1, 0, some "boom"⟩]
      (by decide) (by decide)).1 ⟨1, "boom", by decide⟩,
    (batch_error_spec 2 ["a", "b"] [10, 20] [none, none] 0
      [Report.running 0 "a", Report.done ⟨0, 10, none⟩,
        Report.running 1 "b", Report.done ⟨1, 20, none⟩]
      (by decide) (by decide)).2 (by decide)⟩

end Roxide
